import Mathlib

/-!
Verification of the binary serialization core of the `utils` repository
(`BinaryDataBuffer` / `BinaryDataReader` / `BinaryDataWriter` / `Serialize`),
as a shallow embedding in Lean.

Conventions of the embedding:
* Octets are `Nat` values `< 256`; byte buffers are `List Nat`.
* Machine integers are modelled by their bit patterns as `Nat` with explicit
  `% 2^w` where the C++ arithmetic wraps; two's-complement `int32` values are
  interpreted through `wrap32 : Int → Int` where a claim speaks about signed
  arithmetic.
* Floats are carried as their IEEE bit patterns: the C++ codec moves them with
  `std::bit_cast` to a same-width unsigned integer, so a `float`/`double` is a
  4- or 8-byte scalar bit pattern to the codec.
* Fallible operations return `Option`/`Bool × state`; the returned state is the
  state the C++ object is left in (unchanged on the failure paths that do not
  mutate).
* `std::set` / `std::map` / `std::unordered_set` / `std::unordered_map` values
  are represented by the list of their elements in iteration order (the order
  `writeNext` traverses them); "content-wise" container equality corresponds to
  equality of these lists.
-/

namespace Serialize

/-- `std::endian` as declared on a buffer: only `big` and `little` occur. -/
inductive Endian where
  | big : Endian
  | little : Endian
deriving DecidableEq, Repr

/-- Little-endian byte decomposition of a bit pattern: byte `i` is
`(bits >> (i*8)) & 0xFF`, i.e. `bits / 256^i % 256`; mirrors the little-endian
write loop of `BinaryDataWriter::writeNext` for scalars. -/
def leBytes : Nat → Nat → List Nat
  | 0, _ => []
  | w + 1, bits => bits % 256 :: leBytes w (bits / 256)

/-- Bytes of a `w`-byte scalar in the declared byte order: the little-endian
writer emits `leBytes`, the big-endian writer emits the same octets in reverse
(`dest[i] = bits >> ((w-1-i)*8) & 0xFF`).  The `memcpy` fast path taken when
the declared order equals the native order produces these same octets. -/
def scalarBytes (e : Endian) (w bits : Nat) : List Nat :=
  match e with
  | .little => leBytes w bits
  | .big => (leBytes w bits).reverse

/-- Little-endian reassembly: mirrors `bits |= src[i] << (i*8)` of
`BinaryDataReader::readNext` for scalars (the ORs combine disjoint bit ranges,
hence are sums). -/
def leVal : List Nat → Nat
  | [] => 0
  | b :: bs => b + 256 * leVal bs

/-- Value of the scalar octets under the declared byte order. -/
def scalarVal (e : Endian) (bs : List Nat) : Nat :=
  match e with
  | .little => leVal bs
  | .big => leVal bs.reverse

theorem leBytes_length (w bits : Nat) : (leBytes w bits).length = w := by
  induction w generalizing bits with
  | zero => rfl
  | succ w ih => simp [leBytes, ih]

theorem scalarBytes_length (e : Endian) (w bits : Nat) :
    (scalarBytes e w bits).length = w := by
  cases e <;> simp [scalarBytes, leBytes_length]

theorem leBytes_lt (w bits : Nat) : ∀ b ∈ leBytes w bits, b < 256 := by
  induction w generalizing bits with
  | zero => intro b hb; simp [leBytes] at hb
  | succ w ih =>
    intro b hb
    simp only [leBytes, List.mem_cons] at hb
    rcases hb with h | h
    · omega
    · exact ih _ b h

theorem scalarBytes_lt (e : Endian) (w bits : Nat) :
    ∀ b ∈ scalarBytes e w bits, b < 256 := by
  cases e with
  | little => exact leBytes_lt w bits
  | big =>
    intro b hb
    simp only [scalarBytes, List.mem_reverse] at hb
    exact leBytes_lt w bits b hb

theorem leVal_leBytes (w bits : Nat) (h : bits < 256 ^ w) :
    leVal (leBytes w bits) = bits := by
  induction w generalizing bits with
  | zero => simp [leBytes, leVal]; omega
  | succ w ih =>
    have hdiv : bits / 256 < 256 ^ w := by
      have : 256 ^ (w + 1) = 256 ^ w * 256 := by ring
      rw [this] at h
      exact Nat.div_lt_of_lt_mul (by omega)
    simp [leBytes, leVal, ih (bits / 256) hdiv]
    omega

theorem scalarVal_scalarBytes (e : Endian) (w bits : Nat) (h : bits < 256 ^ w) :
    scalarVal e (scalarBytes e w bits) = bits := by
  cases e with
  | little => exact leVal_leBytes w bits h
  | big => simp [scalarVal, scalarBytes, leVal_leBytes w bits h]

/-- `BinaryDataReader` state: owned byte vector, mutable cursor, declared
byte order, ready flag (set when all data is present). -/
structure Reader where
  buffer : List Nat
  cursor : Nat
  endian : Endian
  ready : Bool
deriving DecidableEq, Repr

/-- A reader freshly constructed from a complete byte vector
(`BinaryDataReader(std::vector<uint8_t>, endian)`): ready, cursor 0. -/
def mkReader (bs : List Nat) (e : Endian) : Reader :=
  { buffer := bs, cursor := 0, endian := e, ready := true }

/-- `BinaryDataReader::hasDataLeft`: ready and `cursor + n ≤ buffer.size()`. -/
def Reader.hasDataLeft (r : Reader) (n : Nat) : Bool :=
  r.ready && decide (r.cursor + n ≤ r.buffer.length)

/-- The `len` octets of `buf` starting at `start` (used to state what a read
or a span extraction returns). -/
def extract (buf : List Nat) (start len : Nat) : List Nat :=
  (buf.drop start).take len

/-- `BinaryDataReader::readNext` for an integral or floating-point scalar of
`w` bytes: on insufficient data it returns failure without advancing the
cursor; otherwise it consumes `w` octets in declared byte order and
reassembles the bit pattern. -/
def readScalar (w : Nat) (r : Reader) : Option Nat × Reader :=
  if r.hasDataLeft w then
    (some (scalarVal r.endian (extract r.buffer r.cursor w)),
      { r with cursor := r.cursor + w })
  else (none, r)

/-- `BinaryDataReader::readNext(bool*)`: one octet, any non-zero octet decodes
as `true`; fails without advancing when no octet is left. -/
def readBool (r : Reader) : Option Bool × Reader :=
  if r.hasDataLeft 1 then
    (some (decide (extract r.buffer r.cursor 1 ≠ [0])),
      { r with cursor := r.cursor + 1 })
  else (none, r)

/-- `BinaryDataReader::readNext(std::size_t*)` on a host whose `size_t` is
narrower than the 64-bit wire size type: reads the 64-bit value, then fails
(leaving the caller's output untouched, modelled by `none`) when it exceeds
the host maximum `hostMax`; the cursor has already advanced past the 8 octets
in that case. -/
def readNextSizeT (hostMax : Nat) (r : Reader) : Option Nat × Reader :=
  match readScalar 8 r with
  | (none, r1) => (none, r1)
  | (some v, r1) => if v > hostMax then (none, r1) else (some v, r1)

/-- `BinaryDataWriter` state: byte vector, cursor, `maxExpectedSize_` bound,
declared byte order. -/
structure Writer where
  buffer : List Nat
  cursor : Nat
  maxSize : Nat
  endian : Endian
deriving DecidableEq, Repr

/-- `BinaryDataWriter(minExpectedSize, maxExpectedSize, endian)`: buffer
resized to `min(minExpectedSize, maxExpectedSize)` zero octets, cursor 0. -/
def Writer.mk0 (minSize maxSize : Nat) (e : Endian) : Writer :=
  { buffer := List.replicate (min minSize maxSize) 0,
    cursor := 0, maxSize := maxSize, endian := e }

/-- `BinaryDataWriter::resizeIfNeeded`: nothing for 0; failure (unchanged
state) when `cursor + n` exceeds `maxExpectedSize_`; otherwise grows the
storage with zero octets to `cursor + n` when it is shorter.  Allocation is
modelled as always succeeding. -/
def resizeIfNeeded (w : Writer) (n : Nat) : Bool × Writer :=
  if n = 0 then (true, w)
  else if w.cursor + n > w.maxSize then (false, w)
  else if w.cursor + n > w.buffer.length then
    (true, { w with
      buffer := w.buffer ++ List.replicate (w.cursor + n - w.buffer.length) 0 })
  else (true, w)

/-- Overwrite the octets at `[cursor, cursor + bs.length)` and advance the
cursor (the emission loop / `memcpy` of the writer, performed after a
successful `resizeIfNeeded`). -/
def writeBytesAt (w : Writer) (bs : List Nat) : Writer :=
  { w with
    buffer := w.buffer.take w.cursor ++ bs ++ w.buffer.drop (w.cursor + bs.length),
    cursor := w.cursor + bs.length }

/-- `BinaryDataWriter::writeNext` for a scalar of `width` bytes with bit
pattern `bits`: reserve room, then emit the octets in declared byte order. -/
def writeScalar (w : Writer) (width bits : Nat) : Bool × Writer :=
  match resizeIfNeeded w width with
  | (false, w1) => (false, w1)
  | (true, w1) => (true, writeBytesAt w1 (scalarBytes w1.endian width bits))

/-- `BinaryDataBuffer::setCursor`: rejects positions beyond the current
buffer length and never grows the storage. -/
def setCursor (w : Writer) (pos : Nat) : Bool × Writer :=
  if pos > w.buffer.length then (false, w) else (true, { w with cursor := pos })

/-- `size_t` modulus: the span-extraction overload computes `start + length`
in `size_t`, which wraps at `2^64`. -/
def SIZE_MOD : Nat := 18446744073709551616

/-- `BinaryDataBuffer::getBuffer(start, length)`: computes
`end = start + length` (wrapping `size_t` addition) and returns the empty
span when `end >= m_buffer.size()` or `end < start`; otherwise the octets
`[start, start + length)`. -/
def getBuffer (buf : List Nat) (start len : Nat) : List Nat :=
  if (start + len) % SIZE_MOD ≥ buf.length ∨ (start + len) % SIZE_MOD < start
  then [] else extract buf start len

/-- The rolling-hash loop of `Header::calculateChecksum` at the bit-pattern
level: `int32` arithmetic with two's-complement wrap-around corresponds to
arithmetic on the unsigned 32-bit pattern modulo `2^32`.  The `for` loop over
the octets is this tail recursion. -/
def checksumFold (p : Nat) : List Nat → Nat
  | [] => p
  | b :: bs => checksumFold ((p * 31 + b) % 4294967296) bs

/-- `Header::calculateChecksum`: starts from the byte count cast to `int32`,
folds `h = h * 31 + b`, and bumps a zero result to 1 (`checksum += 1` when it
equals `NO_CHECKSUM`). -/
def calculateChecksum (binary : List Nat) : Nat :=
  if checksumFold (binary.length % 4294967296) binary = 0
  then checksumFold (binary.length % 4294967296) binary + 1
  else checksumFold (binary.length % 4294967296) binary

/-- Interpretation of a 32-bit pattern (or any integer) as a two's-complement
`int32` value in `[-2^31, 2^31)`. -/
def wrap32 (x : Int) : Int := (x + 2147483648) % 4294967296 - 2147483648

/-- The rolling-hash loop as the specification words it, on signed values. -/
def checksumSpecFold (p : Int) : List Nat → Int
  | [] => p
  | b :: bs => checksumSpecFold (wrap32 (p * 31 + (b : Int))) bs

/-- The checksum as the specification words it: `h` starts as the length cast
to `int32`; each octet maps `h` to `h * 31 + b` in wrap-around `int32`
arithmetic; a zero result is replaced by 1. -/
def checksumSpec (binary : List Nat) : Int :=
  if checksumSpecFold (wrap32 binary.length) binary = 0 then 1
  else checksumSpecFold (wrap32 binary.length) binary

theorem checksumFold_nil (p : Nat) : checksumFold p [] = p := rfl

theorem checksumFold_cons (p b : Nat) (bs : List Nat) :
    checksumFold p (b :: bs) = checksumFold ((p * 31 + b) % 4294967296) bs := rfl

theorem checksumSpecFold_nil (p : Int) : checksumSpecFold p [] = p := rfl

theorem checksumSpecFold_cons (p : Int) (b : Nat) (bs : List Nat) :
    checksumSpecFold p (b :: bs)
      = checksumSpecFold (wrap32 (p * 31 + (b : Int))) bs := rfl

theorem wrap32_congr {x y : Int} (h : x % 4294967296 = y % 4294967296) :
    wrap32 x = wrap32 y := by
  unfold wrap32
  omega

theorem checksum_fold_corr (bs : List Nat) :
    ∀ p : Nat, p < 4294967296 →
      wrap32 (checksumFold p bs) = checksumSpecFold (wrap32 p) bs := by
  induction bs with
  | nil => intro p _; rw [checksumFold_nil, checksumSpecFold_nil]
  | cons b bs ih =>
    intro p hp
    have hstep : wrap32 (((p * 31 + b) % 4294967296 : Nat) : Int)
        = wrap32 (wrap32 (p : Int) * 31 + (b : Nat)) := by
      apply wrap32_congr
      unfold wrap32
      omega
    rw [checksumFold_cons, checksumSpecFold_cons,
      ih ((p * 31 + b) % 4294967296) (Nat.mod_lt _ (by norm_num)), hstep]

theorem checksum_fold_lt (bs : List Nat) :
    ∀ p : Nat, p < 4294967296 → checksumFold p bs < 4294967296 := by
  induction bs with
  | nil => intro p hp; rw [checksumFold_nil]; exact hp
  | cons b bs ih =>
    intro p hp
    rw [checksumFold_cons]
    exact ih _ (Nat.mod_lt _ (by norm_num))

/-- C4 — The checksum of a byte sequence starts from the length cast to
`int32`, folds `h := h * 31 + b` over the octets in 32-bit two's-complement
wrap-around arithmetic, replaces a final 0 by 1, and therefore never returns
0: the bit-pattern implementation realizes exactly that signed specification,
and both readings are non-zero. -/
theorem C4_checksum_rolling_hash (bs : List Nat) :
    wrap32 (calculateChecksum bs) = checksumSpec bs
      ∧ checksumSpec bs ≠ 0 ∧ calculateChecksum bs ≠ 0 := by
  have hinit : bs.length % 4294967296 < 4294967296 := Nat.mod_lt _ (by norm_num)
  have hcorr := checksum_fold_corr bs (bs.length % 4294967296) hinit
  have hlt := checksum_fold_lt bs (bs.length % 4294967296) hinit
  have hinit2 : wrap32 ((bs.length % 4294967296 : Nat) : Int)
      = wrap32 (bs.length : Int) := by
    apply wrap32_congr
    omega
  rw [hinit2] at hcorr
  unfold calculateChecksum checksumSpec
  have hzero : checksumFold (bs.length % 4294967296) bs = 0
      ↔ checksumSpecFold (wrap32 (bs.length : Int)) bs = 0 := by
    rw [← hcorr]
    unfold wrap32
    omega
  by_cases h0 : checksumFold (bs.length % 4294967296) bs = 0
  · have h0i : checksumSpecFold (wrap32 (bs.length : Int)) bs = 0 := hzero.mp h0
    rw [if_pos h0, if_pos h0i, h0]
    refine ⟨?_, by norm_num, by norm_num⟩
    unfold wrap32
    omega
  · have h0i : checksumSpecFold (wrap32 (bs.length : Int)) bs ≠ 0 :=
      fun h => h0 (hzero.mpr h)
    rw [if_neg h0, if_neg h0i]
    exact ⟨hcorr, h0i, h0⟩

/-- C6 — A failing primitive read (scalar or bool) leaves the reader's state,
in particular its cursor, exactly as it was; a failing primitive write leaves
the writer's buffer length and cursor exactly as they were, so the writer
stays usable. -/
theorem C6_failed_primitive_preserves_state :
    (∀ (r : Reader) (w : Nat), (readScalar w r).1 = none → (readScalar w r).2 = r)
    ∧ (∀ r : Reader, (readBool r).1 = none → (readBool r).2 = r)
    ∧ (∀ (wr : Writer) (width bits : Nat), (writeScalar wr width bits).1 = false →
        (writeScalar wr width bits).2.buffer.length = wr.buffer.length
          ∧ (writeScalar wr width bits).2.cursor = wr.cursor) := by
  refine ⟨?_, ?_, ?_⟩
  · intro r w h
    unfold readScalar at *
    by_cases hd : r.hasDataLeft w = true
    · simp [hd] at h
    · simp [hd]
  · intro r h
    unfold readBool at *
    by_cases hd : r.hasDataLeft 1 = true
    · simp [hd] at h
    · simp [hd]
  · intro wr width bits h
    unfold writeScalar resizeIfNeeded at *
    by_cases h0 : width = 0
    · simp [h0] at h
    · by_cases hmax : wr.cursor + width > wr.maxSize
      · simp [h0, hmax] at h ⊢
      · by_cases hgrow : wr.cursor + width > wr.buffer.length <;>
          simp [h0, hmax, hgrow] at h

/-- Witness for C6 at concrete failing primitives: an empty ready reader and
a writer whose `maxExpectedSize` is 2. -/
theorem C6_witness :
    (readScalar 4 (mkReader [] .little)).2 = mkReader [] .little
    ∧ (readBool (mkReader [] .little)).2 = mkReader [] .little
    ∧ ((writeScalar (Writer.mk0 0 2 .little) 4 7).2.buffer.length
          = (Writer.mk0 0 2 .little).buffer.length
        ∧ (writeScalar (Writer.mk0 0 2 .little) 4 7).2.cursor
          = (Writer.mk0 0 2 .little).cursor) :=
  ⟨C6_failed_primitive_preserves_state.1 (mkReader [] .little) 4 (by decide),
   C6_failed_primitive_preserves_state.2.1 (mkReader [] .little) (by decide),
   C6_failed_primitive_preserves_state.2.2 (Writer.mk0 0 2 .little) 4 7 (by decide)⟩

/-- C7 — Decoding a 64-bit wire size into a host counter narrower than 64
bits fails when the value exceeds the host maximum, leaving the caller's
output untouched (`none` — the assignment `*size = ...` is only reached on
success); values within range are stored and the call succeeds. -/
theorem C7_size_overflow (r : Reader) (hostMax v : Nat)
    (h : (readScalar 8 r).1 = some v) :
    (v > hostMax → (readNextSizeT hostMax r).1 = none)
    ∧ (v ≤ hostMax → (readNextSizeT hostMax r).1 = some v) := by
  unfold readNextSizeT
  constructor
  · intro hv
    rcases hr : readScalar 8 r with ⟨ov, r1⟩
    rw [hr] at h
    simp at h
    subst h
    simp [if_pos hv]
  · intro hv
    rcases hr : readScalar 8 r with ⟨ov, r1⟩
    rw [hr] at h
    simp at h
    subst h
    show ((if v > hostMax then (none, r1) else (some v, r1)) : Option Nat × Reader).1
      = some v
    rw [if_neg (by omega : ¬ v > hostMax)]

/-- Witness for C7: the wire value `2^33` (little-endian octets
`00 00 00 00 02 00 00 00`) into a 32-bit `size_t` fails; the value 7 fits
and is stored. -/
theorem C7_witness :
    (readNextSizeT 4294967295 (mkReader [0, 0, 0, 0, 2, 0, 0, 0] .little)).1 = none
    ∧ (readNextSizeT 4294967295 (mkReader [7, 0, 0, 0, 0, 0, 0, 0] .little)).1
        = some 7 :=
  ⟨(C7_size_overflow (mkReader [0, 0, 0, 0, 2, 0, 0, 0] .little) 4294967295
      8589934592 (by decide)).1 (by decide),
   (C7_size_overflow (mkReader [7, 0, 0, 0, 0, 0, 0, 0] .little) 4294967295
      7 (by decide)).2 (by decide)⟩

/-- C8 — Writing `uint32 0x01020304` with a little-endian writer produces the
octets `04 03 02 01`; a little-endian reader decodes them back to
`0x01020304`, and a big-endian reader decodes the same octets to
`0x04030201`. -/
theorem C8_uint32_cross_endian :
    (writeScalar (Writer.mk0 0 100 .little) 4 0x01020304).1 = true
    ∧ (writeScalar (Writer.mk0 0 100 .little) 4 0x01020304).2.buffer = [4, 3, 2, 1]
    ∧ (readScalar 4 (mkReader [4, 3, 2, 1] .little)).1 = some 0x01020304
    ∧ (readScalar 4 (mkReader [4, 3, 2, 1] .big)).1 = some 0x04030201 := by
  decide

/-- C9 — The span extraction `getBuffer(start, length)` returns a non-empty
span only when `start + length < buffer.size()` (in exact, non-wrapping
arithmetic); in particular a request whose end coincides with the buffer end
(`start + length = size`) yields the empty span, so the final byte region can
never be borrowed through this interface. -/
theorem C9_getBuffer_strict_bound (buf : List Nat) (start len : Nat)
    (hs : start < SIZE_MOD) (hl : len < SIZE_MOD) :
    (getBuffer buf start len ≠ [] → start + len < buf.length)
    ∧ (start + len = buf.length → getBuffer buf start len = []) := by
  unfold SIZE_MOD at hs hl
  constructor
  · intro hne
    by_cases hguard : (start + len) % SIZE_MOD ≥ buf.length
        ∨ (start + len) % SIZE_MOD < start
    · exact absurd (by unfold getBuffer; rw [if_pos hguard]) hne
    · push_neg at hguard
      unfold SIZE_MOD at hguard
      omega
  · intro heq
    have hguard : (start + len) % SIZE_MOD ≥ buf.length
        ∨ (start + len) % SIZE_MOD < start := by
      unfold SIZE_MOD
      omega
    unfold getBuffer
    rw [if_pos hguard]

/-- Witness for C9: in the 3-byte buffer `[10, 20, 30]`, the request
`(1, 1)` is non-empty (and indeed `1 + 1 < 3`), while the request `(1, 2)`,
whose end is exactly the buffer length, returns the empty span. -/
theorem C9_witness :
    (1 + 1 < ([10, 20, 30] : List Nat).length)
    ∧ getBuffer [10, 20, 30] 1 2 = [] :=
  ⟨(C9_getBuffer_strict_bound [10, 20, 30] 1 1 (by decide) (by decide)).1
      (by decide),
   (C9_getBuffer_strict_bound [10, 20, 30] 1 2 (by decide) (by decide)).2
      (by decide)⟩

/-!
## The UTF-8 bridge (`utils/string/utf8Conversion.hpp`)

Octet arithmetic is embedded with division and remainder in place of the
C++ shifts and masks (`x >> 6` is `x / 64`, `x & 0x3F` is `x % 64`,
`0x80 | y` with `y < 64` is `128 + y`); the lead-byte classification
`(b & 0xE0) == 0xC0` is the range test `192 ≤ b ≤ 223`, and likewise for
the other prefixes.  The decoder below unrolls `appendContBytes` over the
1–4 continuation bytes; a sequence that runs past the end of the input
fails at the shape match, exactly where the C++ length check
`i + len > input_size` fails.
-/

/-- A continuation octet: `(b & 0xC0) == 0x80`. -/
abbrev Cont (b : Nat) : Prop := 128 ≤ b ∧ b ≤ 191

/-- The decoded code point is an overlong encoding for its sequence length. -/
abbrev Overlong (cp len : Nat) : Prop :=
  (len = 2 ∧ cp < 128) ∨ (len = 3 ∧ cp < 2048) ∨ (len = 4 ∧ cp < 65536)

/-- The code point lies in the UTF-16 surrogate range U+D800..U+DFFF. -/
abbrev SurrogateCp (cp : Nat) : Prop := 55296 ≤ cp ∧ cp ≤ 57343

/-- The final validation of `utf8ToWstring`: not overlong, not a surrogate,
not beyond U+10FFFF. -/
abbrev CpValid (cp len : Nat) : Prop :=
  ¬Overlong cp len ∧ ¬SurrogateCp cp ∧ cp ≤ 1114111

/-- Code-point emission of the decoder: one unit for 32-bit `wchar_t` or a
BMP value, a UTF-16 surrogate pair for a 16-bit `wchar_t` and a
supplementary code point. -/
def utf16Units (w16 : Bool) (cp : Nat) : List Nat :=
  if w16 = true ∧ 65535 < cp then
    [55296 + (cp - 65536) / 1024 % 1024, 56320 + (cp - 65536) % 1024]
  else [cp]

mutual

/-- `util::utf8ToWstring` on octet lists: decodes one UTF-8 sequence per
step, validating lead byte, continuation bytes, overlong form, surrogate
range and the U+10FFFF bound, and emits `wchar_t` units (`w16` selects the
16-bit host wide form).  The 1-3 continuation octets of a multi-byte
sequence are consumed by one helper per sequence length (`appendContBytes`
unrolled); a sequence whose continuation octets run past the end of the
input fails at the helper's shape match, exactly where the C++ length check
`i + len > input_size` fails. -/
def utf8ToWstring (w16 : Bool) : List Nat → Option (List Nat)
  | [] => some []
  | b0 :: rest =>
    if b0 ≤ 127 then
      if CpValid b0 1 then
        (utf8ToWstring w16 rest).map (fun us => utf16Units w16 b0 ++ us)
      else none
    else if 192 ≤ b0 ∧ b0 ≤ 223 then utf8Cont1 w16 b0 rest
    else if 224 ≤ b0 ∧ b0 ≤ 239 then utf8Cont2 w16 b0 rest
    else if 240 ≤ b0 ∧ b0 ≤ 247 then utf8Cont3 w16 b0 rest
    else none
termination_by l => (l.length, 0)

/-- One continuation octet (2-byte sequences). -/
def utf8Cont1 (w16 : Bool) (b0 : Nat) : List Nat → Option (List Nat)
  | b1 :: r =>
    if Cont b1 ∧ CpValid ((b0 % 32) * 64 + b1 % 64) 2 then
      (utf8ToWstring w16 r).map
        (fun us => utf16Units w16 ((b0 % 32) * 64 + b1 % 64) ++ us)
    else none
  | [] => none
termination_by l => (l.length, 1)

/-- Two continuation octets (3-byte sequences). -/
def utf8Cont2 (w16 : Bool) (b0 : Nat) : List Nat → Option (List Nat)
  | b1 :: b2 :: r =>
    if Cont b1 ∧ Cont b2
        ∧ CpValid (((b0 % 16) * 64 + b1 % 64) * 64 + b2 % 64) 3 then
      (utf8ToWstring w16 r).map
        (fun us => utf16Units w16 (((b0 % 16) * 64 + b1 % 64) * 64 + b2 % 64) ++ us)
    else none
  | [] => none
  | [_] => none
termination_by l => (l.length, 1)

/-- Three continuation octets (4-byte sequences). -/
def utf8Cont3 (w16 : Bool) (b0 : Nat) : List Nat → Option (List Nat)
  | b1 :: b2 :: b3 :: r =>
    if Cont b1 ∧ Cont b2 ∧ Cont b3
        ∧ CpValid ((((b0 % 8) * 64 + b1 % 64) * 64 + b2 % 64) * 64 + b3 % 64) 4 then
      (utf8ToWstring w16 r).map
        (fun us =>
          utf16Units w16 ((((b0 % 8) * 64 + b1 % 64) * 64 + b2 % 64) * 64 + b3 % 64) ++ us)
    else none
  | [] => none
  | [_] => none
  | [_, _] => none
termination_by l => (l.length, 1)

end

/-- `pushUtf8Bytes`: minimal-length UTF-8 emission of one code point; a
value beyond U+10FFFF emits nothing (the C++ falls through its final
`else` silently). -/
def pushUtf8 (cp : Nat) : List Nat :=
  if cp ≤ 127 then [cp]
  else if cp ≤ 2047 then [192 + cp / 64, 128 + cp % 64]
  else if cp ≤ 65535 then [224 + cp / 4096, 128 + cp / 64 % 64, 128 + cp % 64]
  else if cp ≤ 1114111 then
    [240 + cp / 262144, 128 + cp / 4096 % 64, 128 + cp / 64 % 64, 128 + cp % 64]
  else []

mutual

/-- `util::wstringToUtf8` on unit lists: for the 16-bit wide form a high
surrogate must pair with a following low surrogate (combined into one code
point by `wstringToUtf8Pair`) and a lone surrogate fails; for the 32-bit
wide form any unit in the surrogate range fails. -/
def wstringToUtf8 (w16 : Bool) : List Nat → Option (List Nat)
  | [] => some []
  | u :: rest =>
    if w16 = true then
      if 55296 ≤ u ∧ u ≤ 56319 then wstringToUtf8Pair w16 u rest
      else if 56320 ≤ u ∧ u ≤ 57343 then none
      else (wstringToUtf8 w16 rest).map (fun bs => pushUtf8 u ++ bs)
    else
      if 55296 ≤ u ∧ u ≤ 57343 then none
      else (wstringToUtf8 w16 rest).map (fun bs => pushUtf8 u ++ bs)
termination_by l => (l.length, 0)

/-- The low half of a surrogate pair: a high surrogate at the end of input
(`i + 1 >= input_size`) or followed by a non-low unit is a fatal error. -/
def wstringToUtf8Pair (w16 : Bool) (u : Nat) : List Nat → Option (List Nat)
  | [] => none
  | low :: rest2 =>
    if low < 56320 ∨ 57343 < low then none
    else
      (wstringToUtf8 w16 rest2).map
        (fun bs => pushUtf8 (65536 + ((u - 55296) * 1024 + (low - 56320))) ++ bs)
termination_by l => (l.length, 1)

end

theorem utf8_decode_push (w16 : Bool) (cp : Nat) (rest : List Nat)
    (hmax : cp ≤ 1114111) (hs : ¬SurrogateCp cp) :
    utf8ToWstring w16 (pushUtf8 cp ++ rest)
      = (utf8ToWstring w16 rest).map (fun us => utf16Units w16 cp ++ us) := by
  by_cases hA : cp ≤ 127
  · have hp : pushUtf8 cp = [cp] := by
      unfold pushUtf8; rw [if_pos hA]
    rw [hp, List.singleton_append, utf8ToWstring]
    rw [if_pos hA,
      if_pos (show CpValid cp 1 by unfold CpValid Overlong SurrogateCp; omega)]
  · by_cases hB : cp ≤ 2047
    · have hp : pushUtf8 cp = [192 + cp / 64, 128 + cp % 64] := by
        unfold pushUtf8; rw [if_neg hA, if_pos hB]
      rw [hp]
      simp only [List.cons_append, List.nil_append]
      rw [utf8ToWstring]
      rw [if_neg (by omega : ¬(192 + cp / 64 ≤ 127)),
        if_pos (show 192 ≤ 192 + cp / 64 ∧ 192 + cp / 64 ≤ 223 by omega)]
      rw [utf8Cont1]
      have hcp : ((192 + cp / 64) % 32) * 64 + (128 + cp % 64) % 64 = cp := by omega
      rw [hcp]
      rw [if_pos (show Cont (128 + cp % 64) ∧ CpValid cp 2 by
        unfold Cont CpValid Overlong SurrogateCp; omega)]
    · by_cases hC : cp ≤ 65535
      · have hp : pushUtf8 cp = [224 + cp / 4096, 128 + cp / 64 % 64, 128 + cp % 64] := by
          unfold pushUtf8; rw [if_neg hA, if_neg hB, if_pos hC]
        rw [hp]
        simp only [List.cons_append, List.nil_append]
        rw [utf8ToWstring]
        rw [if_neg (by omega : ¬(224 + cp / 4096 ≤ 127)),
          if_neg (by omega : ¬(192 ≤ 224 + cp / 4096 ∧ 224 + cp / 4096 ≤ 223)),
          if_pos (show 224 ≤ 224 + cp / 4096 ∧ 224 + cp / 4096 ≤ 239 by omega)]
        rw [utf8Cont2]
        have hcp : (((224 + cp / 4096) % 16) * 64 + (128 + cp / 64 % 64) % 64) * 64
            + (128 + cp % 64) % 64 = cp := by omega
        rw [hcp]
        rw [if_pos (show Cont (128 + cp / 64 % 64) ∧ Cont (128 + cp % 64) ∧ CpValid cp 3 by
          unfold Cont CpValid Overlong SurrogateCp at *; omega)]
      · have hp : pushUtf8 cp
            = [240 + cp / 262144, 128 + cp / 4096 % 64, 128 + cp / 64 % 64, 128 + cp % 64] := by
          unfold pushUtf8; rw [if_neg hA, if_neg hB, if_neg hC, if_pos hmax]
        rw [hp]
        simp only [List.cons_append, List.nil_append]
        rw [utf8ToWstring]
        rw [if_neg (by omega : ¬(240 + cp / 262144 ≤ 127)),
          if_neg (by omega : ¬(192 ≤ 240 + cp / 262144 ∧ 240 + cp / 262144 ≤ 223)),
          if_neg (by omega : ¬(224 ≤ 240 + cp / 262144 ∧ 240 + cp / 262144 ≤ 239)),
          if_pos (show 240 ≤ 240 + cp / 262144 ∧ 240 + cp / 262144 ≤ 247 by omega)]
        rw [utf8Cont3]
        have hcp : ((((240 + cp / 262144) % 8) * 64 + (128 + cp / 4096 % 64) % 64) * 64
            + (128 + cp / 64 % 64) % 64) * 64 + (128 + cp % 64) % 64 = cp := by omega
        rw [hcp]
        rw [if_pos (show Cont (128 + cp / 4096 % 64) ∧ Cont (128 + cp / 64 % 64)
            ∧ Cont (128 + cp % 64) ∧ CpValid cp 4 by
          unfold Cont CpValid Overlong SurrogateCp; omega)]

theorem map_map_append (o : Option (List Nat)) (a b : List Nat) :
    (o.map (fun us => b ++ us)).map (fun us => a ++ us)
      = o.map (fun us => (a ++ b) ++ us) := by
  cases o <;> simp [List.append_assoc]

/-- Decoding distributes over an append whose first part is fully
decodable: the loop of `utf8ToWstring` consumes `p` the same way inside
`p ++ s` and then continues with `s`. -/
theorem utf8ToWstring_append (w16 : Bool) :
    ∀ (p s u : List Nat), utf8ToWstring w16 p = some u →
      utf8ToWstring w16 (p ++ s) = (utf8ToWstring w16 s).map (fun us => u ++ us) := by
  suffices H : ∀ (n : Nat) (p s u : List Nat), p.length ≤ n →
      utf8ToWstring w16 p = some u →
      utf8ToWstring w16 (p ++ s) = (utf8ToWstring w16 s).map (fun us => u ++ us) by
    intro p s u h
    exact H p.length p s u le_rfl h
  intro n
  induction n with
  | zero =>
    intro p s u hlen h
    match p with
    | [] =>
      rw [utf8ToWstring] at h
      injection h with h
      subst h
      rw [List.nil_append]
      cases ho : utf8ToWstring w16 s <;> simp [ho]
  | succ n ih =>
    intro p s u hlen h
    match p with
    | [] =>
      rw [utf8ToWstring] at h
      injection h with h
      subst h
      rw [List.nil_append]
      cases ho : utf8ToWstring w16 s <;> simp [ho]
    | b0 :: rest =>
      have hlen1 : rest.length ≤ n := by
        simp only [List.length_cons] at hlen
        omega
      rw [utf8ToWstring] at h
      rw [List.cons_append, utf8ToWstring]
      by_cases h1 : b0 ≤ 127
      · rw [if_pos h1] at h ⊢
        by_cases h2 : CpValid b0 1
        · rw [if_pos h2] at h ⊢
          rcases Option.map_eq_some'.mp h with ⟨u1, hrest, hu⟩
          subst hu
          rw [ih rest s u1 hlen1 hrest, map_map_append]
        · rw [if_neg h2] at h
          exact Option.noConfusion h
      · rw [if_neg h1] at h ⊢
        by_cases h2 : 192 ≤ b0 ∧ b0 ≤ 223
        · rw [if_pos h2] at h ⊢
          match rest, hlen1 with
          | [], _ =>
            rw [utf8Cont1] at h
            exact Option.noConfusion h
          | b1 :: r, hlen1 =>
            rw [utf8Cont1] at h
            rw [List.cons_append, utf8Cont1]
            by_cases h3 : Cont b1 ∧ CpValid ((b0 % 32) * 64 + b1 % 64) 2
            · rw [if_pos h3] at h ⊢
              rcases Option.map_eq_some'.mp h with ⟨u1, hrest, hu⟩
              subst hu
              rw [ih r s u1 (by simp at hlen1; omega) hrest, map_map_append]
            · rw [if_neg h3] at h
              exact Option.noConfusion h
        · rw [if_neg h2] at h ⊢
          by_cases h4 : 224 ≤ b0 ∧ b0 ≤ 239
          · rw [if_pos h4] at h ⊢
            match rest, hlen1 with
            | [], _ =>
              rw [utf8Cont2] at h
              exact Option.noConfusion h
            | [b1], _ =>
              rw [utf8Cont2] at h
              exact Option.noConfusion h
            | b1 :: b2 :: r, hlen1 =>
              rw [utf8Cont2] at h
              rw [List.cons_append, List.cons_append, utf8Cont2]
              by_cases h5 : Cont b1 ∧ Cont b2
                  ∧ CpValid (((b0 % 16) * 64 + b1 % 64) * 64 + b2 % 64) 3
              · rw [if_pos h5] at h ⊢
                rcases Option.map_eq_some'.mp h with ⟨u1, hrest, hu⟩
                subst hu
                rw [ih r s u1 (by simp at hlen1; omega) hrest, map_map_append]
              · rw [if_neg h5] at h
                exact Option.noConfusion h
          · rw [if_neg h4] at h ⊢
            by_cases h6 : 240 ≤ b0 ∧ b0 ≤ 247
            · rw [if_pos h6] at h ⊢
              match rest, hlen1 with
              | [], _ =>
                rw [utf8Cont3] at h
                exact Option.noConfusion h
              | [b1], _ =>
                rw [utf8Cont3] at h
                exact Option.noConfusion h
              | [b1, b2], _ =>
                rw [utf8Cont3] at h
                exact Option.noConfusion h
              | b1 :: b2 :: b3 :: r, hlen1 =>
                rw [utf8Cont3] at h
                rw [List.cons_append, List.cons_append, List.cons_append, utf8Cont3]
                by_cases h7 : Cont b1 ∧ Cont b2 ∧ Cont b3
                    ∧ CpValid ((((b0 % 8) * 64 + b1 % 64) * 64 + b2 % 64) * 64 + b3 % 64) 4
                · rw [if_pos h7] at h ⊢
                  rcases Option.map_eq_some'.mp h with ⟨u1, hrest, hu⟩
                  subst hu
                  rw [ih r s u1 (by simp at hlen1; omega) hrest, map_map_append]
                · rw [if_neg h7] at h
                  exact Option.noConfusion h
            · rw [if_neg h6] at h
              exact Option.noConfusion h

/-- Encoding distributes over an append whose first part encodes
successfully. -/
theorem wstringToUtf8_append (w16 : Bool) :
    ∀ (p s u : List Nat), wstringToUtf8 w16 p = some u →
      wstringToUtf8 w16 (p ++ s) = (wstringToUtf8 w16 s).map (fun bs => u ++ bs) := by
  suffices H : ∀ (n : Nat) (p s u : List Nat), p.length ≤ n →
      wstringToUtf8 w16 p = some u →
      wstringToUtf8 w16 (p ++ s) = (wstringToUtf8 w16 s).map (fun bs => u ++ bs) by
    intro p s u h
    exact H p.length p s u le_rfl h
  intro n
  induction n with
  | zero =>
    intro p s u hlen h
    match p with
    | [] =>
      rw [wstringToUtf8] at h
      injection h with h
      subst h
      rw [List.nil_append]
      cases ho : wstringToUtf8 w16 s <;> simp [ho]
  | succ n ih =>
    intro p s u hlen h
    match p with
    | [] =>
      rw [wstringToUtf8] at h
      injection h with h
      subst h
      rw [List.nil_append]
      cases ho : wstringToUtf8 w16 s <;> simp [ho]
    | u0 :: rest =>
      have hlen1 : rest.length ≤ n := by
        simp only [List.length_cons] at hlen
        omega
      rw [wstringToUtf8] at h
      rw [List.cons_append, wstringToUtf8]
      by_cases hw : w16 = true
      · rw [if_pos hw] at h ⊢
        by_cases h1 : 55296 ≤ u0 ∧ u0 ≤ 56319
        · rw [if_pos h1] at h ⊢
          match rest, hlen1 with
          | [], _ =>
            rw [wstringToUtf8Pair] at h
            exact Option.noConfusion h
          | low :: rest2, hlen1 =>
            rw [List.cons_append]
            rw [wstringToUtf8Pair] at h ⊢
            by_cases h2 : low < 56320 ∨ 57343 < low
            · rw [if_pos h2] at h
              exact Option.noConfusion h
            · rw [if_neg h2] at h ⊢
              rcases Option.map_eq_some'.mp h with ⟨u1, hrest, hu⟩
              subst hu
              rw [ih rest2 s u1 (by simp at hlen1; omega) hrest, map_map_append]
        · rw [if_neg h1] at h ⊢
          by_cases h2 : 56320 ≤ u0 ∧ u0 ≤ 57343
          · rw [if_pos h2] at h
            exact Option.noConfusion h
          · rw [if_neg h2] at h ⊢
            rcases Option.map_eq_some'.mp h with ⟨u1, hrest, hu⟩
            subst hu
            rw [ih rest s u1 hlen1 hrest, map_map_append]
      · rw [if_neg hw] at h ⊢
        by_cases h1 : 55296 ≤ u0 ∧ u0 ≤ 57343
        · rw [if_pos h1] at h
          exact Option.noConfusion h
        · rw [if_neg h1] at h ⊢
          rcases Option.map_eq_some'.mp h with ⟨u1, hrest, hu⟩
          subst hu
          rw [ih rest s u1 hlen1 hrest, map_map_append]

theorem utf16Units_w32 (cp : Nat) : utf16Units false cp = [cp] := by
  unfold utf16Units
  rw [if_neg]
  rintro ⟨hf, _⟩
  exact Bool.false_ne_true hf

theorem utf16Units_bmp (cp : Nat) (h : cp ≤ 65535) : utf16Units true cp = [cp] := by
  unfold utf16Units
  rw [if_neg]
  rintro ⟨_, hc⟩
  omega

/-- A well-formed UTF-16 unit sequence: BMP scalar values and properly
ordered surrogate pairs. -/
inductive ValidUtf16 : List Nat → Prop where
  | nil : ValidUtf16 []
  | bmp (u : Nat) (rest : List Nat) : u ≤ 65535 → ¬SurrogateCp u →
      ValidUtf16 rest → ValidUtf16 (u :: rest)
  | pair (hi lo : Nat) (rest : List Nat) : 55296 ≤ hi → hi ≤ 56319 →
      56320 ≤ lo → lo ≤ 57343 → ValidUtf16 rest → ValidUtf16 (hi :: lo :: rest)

/-- Round trip for the 32-bit wide form: any sequence of Unicode scalar
values encodes, and decoding the produced UTF-8 restores it. -/
theorem utf8_roundtrip_w32 (us : List Nat)
    (h : ∀ u ∈ us, u ≤ 1114111 ∧ ¬SurrogateCp u) :
    ∃ bs, wstringToUtf8 false us = some bs ∧ utf8ToWstring false bs = some us := by
  induction us with
  | nil => exact ⟨[], by rw [wstringToUtf8], by rw [utf8ToWstring]⟩
  | cons u rest ih =>
    have hu := h u (List.mem_cons_self u rest)
    obtain ⟨bs, henc, hdec⟩ := ih (fun v hv => h v (List.mem_cons_of_mem u hv))
    refine ⟨pushUtf8 u ++ bs, ?_, ?_⟩
    · rw [wstringToUtf8, if_neg Bool.false_ne_true, if_neg hu.2, henc]
      rfl
    · rw [utf8_decode_push false u bs hu.1 hu.2, hdec, utf16Units_w32,
        Option.map_some', List.singleton_append]

/-- Round trip for the 16-bit wide form: any well-formed UTF-16 sequence
encodes (pairs become one supplementary code point), and decoding restores
exactly the original units. -/
theorem utf8_roundtrip_w16 (us : List Nat) (h : ValidUtf16 us) :
    ∃ bs, wstringToUtf8 true us = some bs ∧ utf8ToWstring true bs = some us := by
  induction h with
  | nil => exact ⟨[], by rw [wstringToUtf8], by rw [utf8ToWstring]⟩
  | bmp u rest hle hns _ ih =>
    obtain ⟨bs, henc, hdec⟩ := ih
    refine ⟨pushUtf8 u ++ bs, ?_, ?_⟩
    · rw [wstringToUtf8, if_pos rfl,
        if_neg (show ¬(55296 ≤ u ∧ u ≤ 56319) by
          unfold SurrogateCp at hns; omega),
        if_neg (show ¬(56320 ≤ u ∧ u ≤ 57343) by
          unfold SurrogateCp at hns; omega),
        henc]
      rfl
    · rw [utf8_decode_push true u bs (by omega) hns, hdec, utf16Units_bmp u hle,
        Option.map_some', List.singleton_append]
  | pair hi lo rest h1 h2 h3 h4 _ ih =>
    obtain ⟨bs, henc, hdec⟩ := ih
    refine ⟨pushUtf8 (65536 + ((hi - 55296) * 1024 + (lo - 56320))) ++ bs, ?_, ?_⟩
    · rw [wstringToUtf8, if_pos rfl, if_pos ⟨h1, h2⟩, wstringToUtf8Pair,
        if_neg (show ¬(lo < 56320 ∨ 57343 < lo) by omega), henc]
      rfl
    · rw [utf8_decode_push true (65536 + ((hi - 55296) * 1024 + (lo - 56320))) bs
        (by omega) (by unfold SurrogateCp; omega), hdec]
      have hunits : utf16Units true (65536 + ((hi - 55296) * 1024 + (lo - 56320)))
          = [hi, lo] := by
        unfold utf16Units
        rw [if_pos ⟨rfl, by omega⟩]
        have e1 : 55296 + (65536 + ((hi - 55296) * 1024 + (lo - 56320)) - 65536)
            / 1024 % 1024 = hi := by omega
        have e2 : 56320 + (65536 + ((hi - 55296) * 1024 + (lo - 56320)) - 65536)
            % 1024 = lo := by omega
        rw [e1, e2]
      rw [hunits, Option.map_some']
      rfl

/-- A continuation octet in lead position fails `decodeLeadingByte`. -/
theorem utf8_reject_cont (w16 : Bool) (b0 : Nat) (rest : List Nat)
    (h1 : 128 ≤ b0) (h2 : b0 ≤ 191) :
    utf8ToWstring w16 (b0 :: rest) = none := by
  rw [utf8ToWstring, if_neg (by omega : ¬b0 ≤ 127),
    if_neg (by omega : ¬(192 ≤ b0 ∧ b0 ≤ 223)),
    if_neg (by omega : ¬(224 ≤ b0 ∧ b0 ≤ 239)),
    if_neg (by omega : ¬(240 ≤ b0 ∧ b0 ≤ 247))]

/-- A lead octet in `0xF5..0xFF` always fails: `0xF8..0xFF` fail the lead
classification, `0xF5..0xF7` decode a code point of at least `0x140000`,
beyond U+10FFFF. -/
theorem utf8_reject_lead_high (w16 : Bool) (b0 : Nat) (rest : List Nat)
    (h1 : 245 ≤ b0) (h2 : b0 ≤ 255) :
    utf8ToWstring w16 (b0 :: rest) = none := by
  rw [utf8ToWstring, if_neg (by omega : ¬b0 ≤ 127),
    if_neg (by omega : ¬(192 ≤ b0 ∧ b0 ≤ 223)),
    if_neg (by omega : ¬(224 ≤ b0 ∧ b0 ≤ 239))]
  by_cases h4 : 240 ≤ b0 ∧ b0 ≤ 247
  · rw [if_pos h4]
    match rest with
    | [] => rw [utf8Cont3]
    | [b1] => rw [utf8Cont3]
    | [b1, b2] => rw [utf8Cont3]
    | b1 :: b2 :: b3 :: r =>
      rw [utf8Cont3, if_neg]
      rintro ⟨_, _, _, _, _, hle⟩
      omega
  · rw [if_neg h4]

/-- Overlong two-byte forms: lead `0xC0`/`0xC1` can only decode a code
point below `0x80`. -/
theorem utf8_reject_overlong2 (w16 : Bool) (b0 : Nat) (rest : List Nat)
    (h1 : 192 ≤ b0) (h2 : b0 ≤ 193) :
    utf8ToWstring w16 (b0 :: rest) = none := by
  rw [utf8ToWstring, if_neg (by omega : ¬b0 ≤ 127),
    if_pos (by omega : 192 ≤ b0 ∧ b0 ≤ 223)]
  match rest with
  | [] => rw [utf8Cont1]
  | b1 :: r =>
    rw [utf8Cont1, if_neg]
    rintro ⟨_, hov, _, _⟩
    exact hov (Or.inl ⟨rfl, by omega⟩)

/-- Overlong three-byte forms: lead `0xE0` with a continuation octet below
`0xA0` decodes a code point below `0x800`. -/
theorem utf8_reject_overlong3 (w16 : Bool) (b1 : Nat) (rest : List Nat)
    (h1 : 128 ≤ b1) (h2 : b1 ≤ 159) :
    utf8ToWstring w16 (224 :: b1 :: rest) = none := by
  rw [utf8ToWstring, if_neg (by omega : ¬(224 : Nat) ≤ 127),
    if_neg (by omega : ¬(192 ≤ (224 : Nat) ∧ (224 : Nat) ≤ 223)),
    if_pos (by omega : 224 ≤ (224 : Nat) ∧ (224 : Nat) ≤ 239)]
  match rest with
  | [] => rw [utf8Cont2]
  | b2 :: r =>
    rw [utf8Cont2, if_neg]
    rintro ⟨_, _, hov, _, _⟩
    exact hov (Or.inr (Or.inl ⟨rfl, by omega⟩))

/-- Overlong four-byte forms: lead `0xF0` with a continuation octet below
`0x90` decodes a code point below `0x10000`. -/
theorem utf8_reject_overlong4 (w16 : Bool) (b1 : Nat) (rest : List Nat)
    (h1 : 128 ≤ b1) (h2 : b1 ≤ 143) :
    utf8ToWstring w16 (240 :: b1 :: rest) = none := by
  rw [utf8ToWstring, if_neg (by omega : ¬(240 : Nat) ≤ 127),
    if_neg (by omega : ¬(192 ≤ (240 : Nat) ∧ (240 : Nat) ≤ 223)),
    if_neg (by omega : ¬(224 ≤ (240 : Nat) ∧ (240 : Nat) ≤ 239)),
    if_pos (by omega : 240 ≤ (240 : Nat) ∧ (240 : Nat) ≤ 247)]
  match rest with
  | [] => rw [utf8Cont3]
  | [b2] => rw [utf8Cont3]
  | b2 :: b3 :: r =>
    rw [utf8Cont3, if_neg]
    rintro ⟨_, _, _, hov, _, _⟩
    exact hov (Or.inr (Or.inr ⟨rfl, by omega⟩))

/-- UTF-8-encoded surrogates: lead `0xED` with a continuation octet of
`0xA0` or above decodes a code point in U+D800..U+DFFF. -/
theorem utf8_reject_surrogate (w16 : Bool) (b1 : Nat) (rest : List Nat)
    (h1 : 160 ≤ b1) (h2 : b1 ≤ 191) :
    utf8ToWstring w16 (237 :: b1 :: rest) = none := by
  rw [utf8ToWstring, if_neg (by omega : ¬(237 : Nat) ≤ 127),
    if_neg (by omega : ¬(192 ≤ (237 : Nat) ∧ (237 : Nat) ≤ 223)),
    if_pos (by omega : 224 ≤ (237 : Nat) ∧ (237 : Nat) ≤ 239)]
  match rest with
  | [] => rw [utf8Cont2]
  | b2 :: r =>
    rw [utf8Cont2, if_neg]
    rintro ⟨_, hc2, _, hns, _⟩
    have hb2 : b2 % 64 ≤ 63 := by omega
    exact hns ⟨by omega, by omega⟩

/-- Code points beyond U+10FFFF: lead `0xF4` with a continuation octet of
`0x90` or above decodes a code point of at least `0x110000`. -/
theorem utf8_reject_toobig (w16 : Bool) (b1 : Nat) (rest : List Nat)
    (h1 : 144 ≤ b1) (h2 : b1 ≤ 191) :
    utf8ToWstring w16 (244 :: b1 :: rest) = none := by
  rw [utf8ToWstring, if_neg (by omega : ¬(244 : Nat) ≤ 127),
    if_neg (by omega : ¬(192 ≤ (244 : Nat) ∧ (244 : Nat) ≤ 223)),
    if_neg (by omega : ¬(224 ≤ (244 : Nat) ∧ (244 : Nat) ≤ 239)),
    if_pos (by omega : 240 ≤ (244 : Nat) ∧ (244 : Nat) ≤ 247)]
  match rest with
  | [] => rw [utf8Cont3]
  | [b2] => rw [utf8Cont3]
  | b2 :: b3 :: r =>
    rw [utf8Cont3, if_neg]
    rintro ⟨_, _, _, _, _, hle⟩
    omega

/-- Truncated sequences: a multi-byte lead whose continuation octets run
past the end of the input fails. -/
theorem utf8_reject_trunc1 (w16 : Bool) (b0 : Nat) (h1 : 192 ≤ b0) (h2 : b0 ≤ 247) :
    utf8ToWstring w16 [b0] = none := by
  rw [utf8ToWstring, if_neg (by omega : ¬b0 ≤ 127)]
  by_cases ha : 192 ≤ b0 ∧ b0 ≤ 223
  · rw [if_pos ha, utf8Cont1]
  · rw [if_neg ha]
    by_cases hb : 224 ≤ b0 ∧ b0 ≤ 239
    · rw [if_pos hb, utf8Cont2]
    · rw [if_neg hb, if_pos (by omega : 240 ≤ b0 ∧ b0 ≤ 247), utf8Cont3]

theorem utf8_reject_trunc2 (w16 : Bool) (b0 b1 : Nat) (h1 : 224 ≤ b0) (h2 : b0 ≤ 239) :
    utf8ToWstring w16 [b0, b1] = none := by
  rw [utf8ToWstring, if_neg (by omega : ¬b0 ≤ 127),
    if_neg (by omega : ¬(192 ≤ b0 ∧ b0 ≤ 223)),
    if_pos (by omega : 224 ≤ b0 ∧ b0 ≤ 239), utf8Cont2]

theorem utf8_reject_trunc2b (w16 : Bool) (b0 b1 : Nat) (h1 : 240 ≤ b0) (h2 : b0 ≤ 247) :
    utf8ToWstring w16 [b0, b1] = none := by
  rw [utf8ToWstring, if_neg (by omega : ¬b0 ≤ 127),
    if_neg (by omega : ¬(192 ≤ b0 ∧ b0 ≤ 223)),
    if_neg (by omega : ¬(224 ≤ b0 ∧ b0 ≤ 239)),
    if_pos (by omega : 240 ≤ b0 ∧ b0 ≤ 247), utf8Cont3]

theorem utf8_reject_trunc3 (w16 : Bool) (b0 b1 b2 : Nat) (h1 : 240 ≤ b0) (h2 : b0 ≤ 247) :
    utf8ToWstring w16 [b0, b1, b2] = none := by
  rw [utf8ToWstring, if_neg (by omega : ¬b0 ≤ 127),
    if_neg (by omega : ¬(192 ≤ b0 ∧ b0 ≤ 223)),
    if_neg (by omega : ¬(224 ≤ b0 ∧ b0 ≤ 239)),
    if_pos (by omega : 240 ≤ b0 ∧ b0 ≤ 247), utf8Cont3]

/-- A lone low surrogate in 16-bit wide input fails on encode. -/
theorem wide_reject_low (u : Nat) (rest : List Nat) (h1 : 56320 ≤ u) (h2 : u ≤ 57343) :
    wstringToUtf8 true (u :: rest) = none := by
  rw [wstringToUtf8, if_pos rfl, if_neg (by omega : ¬(55296 ≤ u ∧ u ≤ 56319)),
    if_pos (by omega : 56320 ≤ u ∧ u ≤ 57343)]

/-- A high surrogate at the end of 16-bit wide input fails on encode. -/
theorem wide_reject_high_end (u : Nat) (h1 : 55296 ≤ u) (h2 : u ≤ 56319) :
    wstringToUtf8 true [u] = none := by
  rw [wstringToUtf8, if_pos rfl, if_pos (by omega : 55296 ≤ u ∧ u ≤ 56319),
    wstringToUtf8Pair]

/-- A high surrogate followed by a unit that is not a low surrogate fails
on encode. -/
theorem wide_reject_high_nolow (u v : Nat) (rest : List Nat)
    (h1 : 55296 ≤ u) (h2 : u ≤ 56319) (h3 : v < 56320 ∨ 57343 < v) :
    wstringToUtf8 true (u :: v :: rest) = none := by
  rw [wstringToUtf8, if_pos rfl, if_pos (by omega : 55296 ≤ u ∧ u ≤ 56319),
    wstringToUtf8Pair, if_pos h3]

/-- C5 — The wide-string/UTF-8 bridge: converting a wide string of valid
Unicode scalar values (any scalars for the 32-bit wide form; well-formed
UTF-16 for the 16-bit form) to UTF-8 and back is the identity; the inbound
UTF-8 decoder rejects every input that, after any fully decodable prefix,
continues with a lone continuation byte, an overlong encoding (2-, 3- or
4-byte), a UTF-8-encoded surrogate, a code point beyond U+10FFFF, a lead
byte in 0xF5..0xFF, or a truncated multi-byte sequence at the end of input;
and the outbound 16-bit encoder rejects a lone surrogate (a low surrogate,
or a high surrogate not followed by a low one). -/
theorem C5_utf8_wide_bridge :
    (∀ us : List Nat, (∀ u ∈ us, u ≤ 1114111 ∧ ¬SurrogateCp u) →
      ∃ bs, wstringToUtf8 false us = some bs ∧ utf8ToWstring false bs = some us)
    ∧ (∀ us : List Nat, ValidUtf16 us →
      ∃ bs, wstringToUtf8 true us = some bs ∧ utf8ToWstring true bs = some us)
    ∧ (∀ (w16 : Bool) (p u : List Nat), utf8ToWstring w16 p = some u →
        (∀ (b0 : Nat) (s : List Nat), 128 ≤ b0 → b0 ≤ 191 →
          utf8ToWstring w16 (p ++ b0 :: s) = none)
        ∧ (∀ (b0 : Nat) (s : List Nat), 192 ≤ b0 → b0 ≤ 193 →
          utf8ToWstring w16 (p ++ b0 :: s) = none)
        ∧ (∀ (b1 : Nat) (s : List Nat), 128 ≤ b1 → b1 ≤ 159 →
          utf8ToWstring w16 (p ++ 224 :: b1 :: s) = none)
        ∧ (∀ (b1 : Nat) (s : List Nat), 128 ≤ b1 → b1 ≤ 143 →
          utf8ToWstring w16 (p ++ 240 :: b1 :: s) = none)
        ∧ (∀ (b1 : Nat) (s : List Nat), 160 ≤ b1 → b1 ≤ 191 →
          utf8ToWstring w16 (p ++ 237 :: b1 :: s) = none)
        ∧ (∀ (b1 : Nat) (s : List Nat), 144 ≤ b1 → b1 ≤ 191 →
          utf8ToWstring w16 (p ++ 244 :: b1 :: s) = none)
        ∧ (∀ (b0 : Nat) (s : List Nat), 245 ≤ b0 → b0 ≤ 255 →
          utf8ToWstring w16 (p ++ b0 :: s) = none)
        ∧ (∀ b0 : Nat, 192 ≤ b0 → b0 ≤ 247 → utf8ToWstring w16 (p ++ [b0]) = none)
        ∧ (∀ b0 b1 : Nat, 224 ≤ b0 → b0 ≤ 239 →
            utf8ToWstring w16 (p ++ [b0, b1]) = none)
        ∧ (∀ b0 b1 : Nat, 240 ≤ b0 → b0 ≤ 247 →
            utf8ToWstring w16 (p ++ [b0, b1]) = none)
        ∧ (∀ b0 b1 b2 : Nat, 240 ≤ b0 → b0 ≤ 247 →
            utf8ToWstring w16 (p ++ [b0, b1, b2]) = none))
    ∧ (∀ p bsp : List Nat, wstringToUtf8 true p = some bsp →
        (∀ (u : Nat) (s : List Nat), 56320 ≤ u → u ≤ 57343 →
          wstringToUtf8 true (p ++ u :: s) = none)
        ∧ (∀ u : Nat, 55296 ≤ u → u ≤ 56319 → wstringToUtf8 true (p ++ [u]) = none)
        ∧ (∀ (u v : Nat) (s : List Nat), 55296 ≤ u → u ≤ 56319 →
            (v < 56320 ∨ 57343 < v) → wstringToUtf8 true (p ++ u :: v :: s) = none)) := by
  refine ⟨utf8_roundtrip_w32, utf8_roundtrip_w16, ?_, ?_⟩
  · intro w16 p u hp
    refine ⟨?_, ?_, ?_, ?_, ?_, ?_, ?_, ?_, ?_, ?_, ?_⟩
    · intro b0 s h1 h2
      rw [utf8ToWstring_append w16 p (b0 :: s) u hp,
        utf8_reject_cont w16 b0 s h1 h2]
      rfl
    · intro b0 s h1 h2
      rw [utf8ToWstring_append w16 p (b0 :: s) u hp,
        utf8_reject_overlong2 w16 b0 s h1 h2]
      rfl
    · intro b1 s h1 h2
      rw [utf8ToWstring_append w16 p (224 :: b1 :: s) u hp,
        utf8_reject_overlong3 w16 b1 s h1 h2]
      rfl
    · intro b1 s h1 h2
      rw [utf8ToWstring_append w16 p (240 :: b1 :: s) u hp,
        utf8_reject_overlong4 w16 b1 s h1 h2]
      rfl
    · intro b1 s h1 h2
      rw [utf8ToWstring_append w16 p (237 :: b1 :: s) u hp,
        utf8_reject_surrogate w16 b1 s h1 h2]
      rfl
    · intro b1 s h1 h2
      rw [utf8ToWstring_append w16 p (244 :: b1 :: s) u hp,
        utf8_reject_toobig w16 b1 s h1 h2]
      rfl
    · intro b0 s h1 h2
      rw [utf8ToWstring_append w16 p (b0 :: s) u hp,
        utf8_reject_lead_high w16 b0 s h1 h2]
      rfl
    · intro b0 h1 h2
      rw [utf8ToWstring_append w16 p [b0] u hp,
        utf8_reject_trunc1 w16 b0 h1 h2]
      rfl
    · intro b0 b1 h1 h2
      rw [utf8ToWstring_append w16 p [b0, b1] u hp,
        utf8_reject_trunc2 w16 b0 b1 h1 h2]
      rfl
    · intro b0 b1 h1 h2
      rw [utf8ToWstring_append w16 p [b0, b1] u hp,
        utf8_reject_trunc2b w16 b0 b1 h1 h2]
      rfl
    · intro b0 b1 b2 h1 h2
      rw [utf8ToWstring_append w16 p [b0, b1, b2] u hp,
        utf8_reject_trunc3 w16 b0 b1 b2 h1 h2]
      rfl
  · intro p bsp hp
    refine ⟨?_, ?_, ?_⟩
    · intro u s h1 h2
      rw [wstringToUtf8_append true p (u :: s) bsp hp, wide_reject_low u s h1 h2]
      rfl
    · intro u h1 h2
      rw [wstringToUtf8_append true p [u] bsp hp, wide_reject_high_end u h1 h2]
      rfl
    · intro u v s h1 h2 h3
      rw [wstringToUtf8_append true p (u :: v :: s) bsp hp,
        wide_reject_high_nolow u v s h1 h2 h3]
      rfl

/-- Witness for C5 at concrete inputs: the scalar list `[0x41, 0x1F60A]`
round-trips in the 32-bit form; the UTF-16 sequence `[0x48, 0xD83D, 0xDE0A]`
round-trips in the 16-bit form; with the valid prefix `[0x41]` the decoder
rejects a lone continuation octet, an overlong `C0 80`, the encoded
surrogate `ED A0 80`, the too-big `F4 90 80 80`, the lead `F5`, a
truncated `E2 82` and a truncated `F1 80`; the 16-bit encoder rejects a
lone low surrogate and a trailing high surrogate after the valid prefix
`[0x48]`. -/
theorem C5_witness :
    (∃ bs, wstringToUtf8 false [65, 128522] = some bs
      ∧ utf8ToWstring false bs = some [65, 128522])
    ∧ (∃ bs, wstringToUtf8 true [72, 55357, 56842] = some bs
      ∧ utf8ToWstring true bs = some [72, 55357, 56842])
    ∧ utf8ToWstring true ([65] ++ 128 :: []) = none
    ∧ utf8ToWstring true ([65] ++ 192 :: [128]) = none
    ∧ utf8ToWstring true ([65] ++ 224 :: 128 :: [128]) = none
    ∧ utf8ToWstring true ([65] ++ 240 :: 128 :: [128, 128]) = none
    ∧ utf8ToWstring true ([65] ++ 237 :: 160 :: [128]) = none
    ∧ utf8ToWstring true ([65] ++ 244 :: 144 :: [128, 128]) = none
    ∧ utf8ToWstring true ([65] ++ 245 :: [128, 128, 128]) = none
    ∧ utf8ToWstring true ([65] ++ [226, 130]) = none
    ∧ utf8ToWstring true ([65] ++ [241, 128]) = none
    ∧ wstringToUtf8 true ([72] ++ 56320 :: []) = none
    ∧ wstringToUtf8 true ([72] ++ [55296]) = none
    ∧ wstringToUtf8 true ([72] ++ 55296 :: 65 :: []) = none := by
  have hp : utf8ToWstring true [65] = some [65] := by
    rw [utf8ToWstring, if_pos (by omega : (65 : Nat) ≤ 127),
      if_pos (by unfold CpValid Overlong SurrogateCp; omega), utf8ToWstring]
    rw [show utf16Units true 65 = [65] from utf16Units_bmp 65 (by omega)]
    rfl
  have hq : wstringToUtf8 true [72] = some [72] := by
    rw [wstringToUtf8, if_pos rfl, if_neg (by omega : ¬(55296 ≤ (72 : Nat) ∧ (72 : Nat) ≤ 56319)),
      if_neg (by omega : ¬(56320 ≤ (72 : Nat) ∧ (72 : Nat) ≤ 57343)), wstringToUtf8]
    rfl
  have hdec := C5_utf8_wide_bridge.2.2.1 true [65] [65] hp
  have henc := C5_utf8_wide_bridge.2.2.2 [72] [72] hq
  refine ⟨C5_utf8_wide_bridge.1 [65, 128522] (by decide),
    C5_utf8_wide_bridge.2.1 [72, 55357, 56842]
      (ValidUtf16.bmp 72 _ (by omega) (by unfold SurrogateCp; omega)
        (ValidUtf16.pair 55357 56842 [] (by omega) (by omega) (by omega) (by omega)
          ValidUtf16.nil)),
    hdec.1 128 [] (by omega) (by omega),
    hdec.2.1 192 [128] (by omega) (by omega),
    hdec.2.2.1 128 [128] (by omega) (by omega),
    hdec.2.2.2.1 128 [128, 128] (by omega) (by omega),
    hdec.2.2.2.2.1 160 [128] (by omega) (by omega),
    hdec.2.2.2.2.2.1 144 [128, 128] (by omega) (by omega),
    hdec.2.2.2.2.2.2.1 245 [128, 128, 128] (by omega) (by omega),
    hdec.2.2.2.2.2.2.2.2.1 226 130 (by omega) (by omega),
    hdec.2.2.2.2.2.2.2.2.2.1 241 128 (by omega) (by omega),
    henc.1 56320 [] (by omega) (by omega),
    henc.2.1 55296 (by omega) (by omega),
    henc.2.2 55296 65 [] (by omega) (by omega) (by omega)⟩

/-! ## The value universe of `writeNext` / `readNext` (claim C3)

Every wire shape the templated overload family of `BinaryDataWriter::writeNext`
and `BinaryDataReader::readNext` supports is captured by a type code `Ty` and a
value tree `Val`.  Machine scalars (all fixed-width integers and both floats)
are their bit patterns together with a byte width, so one `scalar` code covers
the whole `std::is_integral_v || std::is_floating_point_v` overload
(`std::bit_cast` to the unsigned integer of equal width is the identity on bit
patterns).  Sets and maps are modelled by their iteration-order element lists,
which is what the C++ range-for loops of the overloads traverse; `mapT`
entries are key-value pairs, read and written in the same field order as the
`pairT` overload, so a map value holds a list of `pairV` values. -/

inductive Ty where
  | scalar (w : Nat)
  | boolean
  | str
  | wstr
  | opt (t : Ty)
  | variant (ts : List Ty)
  | pairT (a b : Ty)
  | tup (ts : List Ty)
  | arr (t : Ty) (n : Nat)
  | seq (t : Ty)
  | mapT (k v : Ty)
  | bitsT (n : Nat)

/-- Value trees.  `scalar w bits` is a `w`-byte machine scalar's bit pattern;
`str` holds the raw octets of a `std::string`; `wstr` holds the `wchar_t`
units of a `std::wstring`; `seq` covers `vector`/`list`/`deque`/`set`/
`unordered_set` (all share one wire layout: count then elements); `mapV`
holds the entry list of a `map`/`unordered_map`; `bitsV n value` is a
`std::bitset<n>` whose bits form the number `value`. -/
inductive Val where
  | scalar (w bits : Nat)
  | boolean (b : Bool)
  | str (bs : List Nat)
  | wstr (us : List Nat)
  | opt (o : Option Val)
  | variant (idx : Nat) (v : Val)
  | pairV (a b : Val)
  | tup (vs : List Val)
  | arr (vs : List Val)
  | seq (vs : List Val)
  | mapV (kvs : List Val)
  | bitsV (n value : Nat)

/-- Storage width chosen by the `std::bitset<N>` overloads: the smallest of
1, 2, 4, 8 bytes that holds `N` bits. -/
def bitsetWidth (n : Nat) : Nat :=
  if n ≤ 8 then 1 else if n ≤ 16 then 2 else if n ≤ 32 then 4 else 8

mutual

/-- Recursion measure on type codes used by the reader: one larger than the
sum over the sub-codes, with `mapT` one larger than the corresponding
`pairT` because the map overload reads each entry as a key-value pair. -/
def tsize : Ty → Nat
  | .scalar _ => 1
  | .boolean => 1
  | .str => 1
  | .wstr => 1
  | .opt t => 1 + tsize t
  | .variant ts => 1 + tsizeList ts
  | .pairT a b => 1 + tsize a + tsize b
  | .tup ts => 1 + tsizeList ts
  | .arr t _ => 1 + tsize t
  | .seq t => 1 + tsize t
  | .mapT k v => 2 + tsize k + tsize v
  | .bitsT _ => 1

def tsizeList : List Ty → Nat
  | [] => 0
  | t :: ts => 1 + tsize t + tsizeList ts

end

mutual

/-- The octets `writeNext` emits for a value under byte order `e`
(`w16` says whether `wchar_t` is 16-bit): scalars in declared byte order;
bool as one octet 0/1; strings as an 8-byte length followed by the raw
octets; wide strings as the UTF-8 conversion written like a string;
`optional` as a presence octet then the payload; `variant` as an 8-byte
index then the alternative; pairs/tuples/arrays as the juxtaposed elements;
sequences and maps as an 8-byte count then the juxtaposed elements. -/
def encode (w16 : Bool) (e : Endian) : Val → List Nat
  | .scalar w bits => scalarBytes e w bits
  | .boolean b => scalarBytes e 1 (if b then 1 else 0)
  | .str bs => scalarBytes e 8 bs.length ++ bs
  | .wstr us =>
    scalarBytes e 8 ((wstringToUtf8 w16 us).getD []).length ++ (wstringToUtf8 w16 us).getD []
  | .opt none => scalarBytes e 1 0
  | .opt (some v) => scalarBytes e 1 1 ++ encode w16 e v
  | .variant idx v => scalarBytes e 8 idx ++ encode w16 e v
  | .pairV a b => encode w16 e a ++ encode w16 e b
  | .tup vs => encodeList w16 e vs
  | .arr vs => encodeList w16 e vs
  | .seq vs => scalarBytes e 8 vs.length ++ encodeList w16 e vs
  | .mapV kvs => scalarBytes e 8 kvs.length ++ encodeList w16 e kvs
  | .bitsV n value => scalarBytes e (bitsetWidth n) value

def encodeList (w16 : Bool) (e : Endian) : List Val → List Nat
  | [] => []
  | v :: vs => encode w16 e v ++ encodeList w16 e vs

end

/-- Sequencing of writer steps: the C++ overloads chain
`if (!step()) return false;`, so a later step runs only when the earlier
one returned true, and a failing prefix's state is the result. -/
def wstep (x : Bool × Writer) (f : Writer → Bool × Writer) : Bool × Writer :=
  if x.1 then f x.2 else x

/-- `BinaryDataWriter::writeNext(const std::string&)`: reserve
`size + 8` octets, write the 8-byte length, then `memcpy` the raw octets. -/
def writeStrBytes (bs : List Nat) (wr : Writer) : Bool × Writer :=
  wstep (resizeIfNeeded wr (bs.length + 8)) fun w1 =>
    wstep (writeScalar w1 8 bs.length) fun w2 =>
      (true, writeBytesAt w2 bs)

/-- `BinaryDataWriter::writeNext(const std::wstring&)`: convert to UTF-8
first; a conversion failure returns false without touching the writer,
otherwise the UTF-8 octets are written like a string. -/
def wstrWrite : Option (List Nat) → Writer → Bool × Writer
  | some bs, wr => writeStrBytes bs wr
  | none, wr => (false, wr)

mutual

/-- The `BinaryDataWriter::writeNext` overload family over the `Val`
universe.  `est v` stands in for `estimateContainerSize`/`estimateMapSize`
(whose result is ABI-dependent); the container overloads call
`resizeIfNeeded (est v)` first, exactly as the C++ does, and the roundtrip
statements hold for every choice of `est`. -/
def writeNextV (est : Val → Nat) (w16 : Bool) : Val → Writer → Bool × Writer
  | .scalar w bits, wr => writeScalar wr w bits
  | .boolean b, wr => writeScalar wr 1 (if b then 1 else 0)
  | .str bs, wr => writeStrBytes bs wr
  | .wstr us, wr => wstrWrite (wstringToUtf8 w16 us) wr
  | .opt none, wr => writeScalar wr 1 0
  | .opt (some v), wr =>
    wstep (writeScalar wr 1 1) fun w1 => writeNextV est w16 v w1
  | .variant idx v, wr =>
    wstep (writeScalar wr 8 idx) fun w1 => writeNextV est w16 v w1
  | .pairV a b, wr =>
    wstep (writeNextV est w16 a wr) fun w1 => writeNextV est w16 b w1
  | .tup vs, wr => writeListV est w16 vs wr
  | .arr vs, wr =>
    wstep (resizeIfNeeded wr (est (.arr vs))) fun w1 => writeListV est w16 vs w1
  | .seq vs, wr =>
    wstep (resizeIfNeeded wr (est (.seq vs))) fun w1 =>
      wstep (writeScalar w1 8 vs.length) fun w2 => writeListV est w16 vs w2
  | .mapV kvs, wr =>
    wstep (resizeIfNeeded wr (est (.mapV kvs))) fun w1 =>
      wstep (writeScalar w1 8 kvs.length) fun w2 => writeListV est w16 kvs w2
  | .bitsV n value, wr => writeScalar wr (bitsetWidth n) value
termination_by v wr => sizeOf v

/-- The element loops of the container overloads: each element in order,
stopping at the first failure. -/
def writeListV (est : Val → Nat) (w16 : Bool) : List Val → Writer → Bool × Writer
  | [], wr => (true, wr)
  | v :: vs, wr => wstep (writeNextV est w16 v wr) fun w1 => writeListV est w16 vs w1
termination_by vs wr => sizeOf vs

end

/-- Sequencing of reader steps that deliver through an out-parameter pair
`(Option value, reader)`: a failing step makes the whole read fail. -/
def rstep {α β : Type} (x : Option α × Reader) (f : α → Reader → Option β) : Option β :=
  match x.1 with
  | some a => f a x.2
  | none => none

/-- Sequencing of composite reader steps. -/
def vstep {α β : Type} (x : Option (α × Reader)) (f : α → Reader → Option β) : Option β :=
  match x with
  | some (a, r) => f a r
  | none => none

/-- Modelled from the spec: the `std::wstring` overload of `readNext` reads
an 8-byte length and that many octets like a string, then converts the
octets from UTF-8 to the wide encoding, failing (with the octets already
consumed) when the UTF-8 validation rejects them. -/
def readWstr (w16 : Bool) (r : Reader) : Option (Val × Reader) :=
  rstep (readScalar 8 r) fun len r1 =>
    if r1.hasDataLeft len then
      match utf8ToWstring w16 (extract r1.buffer r1.cursor len) with
      | some us => some (.wstr us, { r1 with cursor := r1.cursor + len })
      | none => none
    else none

/-- Modelled from the spec: the `std::bitset<N>` overload of `readNext`
reads the smallest unsigned integer of 1, 2, 4 or 8 bytes that holds `N`
bits and constructs the bitset from it, keeping the low `N` bits. -/
def readBits (n : Nat) (r : Reader) : Option (Val × Reader) :=
  rstep (readScalar (bitsetWidth n) r) fun bits r1 =>
    some (.bitsV n (bits % 2 ^ n), r1)

mutual

/-- The `BinaryDataReader::readNext` overload family, directed by the type
code.  Composite overloads first check `ready` (the C++
`if (!value || !ready) return false;`); primitive reads check it inside
`hasDataLeft`.  The string overload reads an 8-byte length, re-checks
`hasDataLeft`, and assigns the octets; `optional` reads the presence
octet; `variant` reads the 8-byte index, rejects an out-of-range index,
and dispatches structurally over the alternatives like `readVariantImpl`;
sequences and maps read an 8-byte count then that many elements (a map
entry being a key-value pair). -/
def readNextV (w16 : Bool) : Ty → Reader → Option (Val × Reader)
  | .scalar w, r => rstep (readScalar w r) fun bits r1 => some (.scalar w bits, r1)
  | .boolean, r => rstep (readBool r) fun b r1 => some (.boolean b, r1)
  | .str, r =>
    rstep (readScalar 8 r) fun len r1 =>
      if r1.hasDataLeft len then
        some (.str (extract r1.buffer r1.cursor len), { r1 with cursor := r1.cursor + len })
      else none
  | .wstr, r => readWstr w16 r
  | .opt t, r =>
    if r.ready = true then
      rstep (readBool r) fun hasV r1 =>
        if hasV then
          vstep (readNextV w16 t r1) fun v r2 => some (.opt (some v), r2)
        else some (.opt none, r1)
    else none
  | .variant ts, r =>
    if r.ready = true then
      rstep (readScalar 8 r) fun idx r1 =>
        if idx < ts.length then
          vstep (readVariantAlt w16 ts idx r1) fun v r2 => some (.variant idx v, r2)
        else none
    else none
  | .pairT a b, r =>
    if r.ready = true then
      vstep (readNextV w16 a r) fun va r1 =>
        vstep (readNextV w16 b r1) fun vb r2 => some (.pairV va vb, r2)
    else none
  | .tup ts, r =>
    if r.ready = true then
      vstep (readTys w16 ts r) fun vs r1 => some (.tup vs, r1)
    else none
  | .arr t n, r =>
    if r.ready = true then
      vstep (readCount w16 t n r) fun vs r1 => some (.arr vs, r1)
    else none
  | .seq t, r =>
    if r.ready = true then
      rstep (readScalar 8 r) fun cnt r1 =>
        vstep (readCount w16 t cnt r1) fun vs r2 => some (.seq vs, r2)
    else none
  | .mapT tk tv, r =>
    if r.ready = true then
      rstep (readScalar 8 r) fun cnt r1 =>
        vstep (readCount w16 (.pairT tk tv) cnt r1) fun vs r2 => some (.mapV vs, r2)
    else none
  | .bitsT n, r => readBits n r
termination_by t r => (tsize t, 0)
decreasing_by
  all_goals simp_wf
  all_goals first
    | (apply Prod.Lex.right; omega)
    | (apply Prod.Lex.left; simp [tsize, tsizeList]; try omega)

/-- `readVariantImpl`: structural descent over the alternative list,
counting the wire index down; the in-range check has already happened. -/
def readVariantAlt (w16 : Bool) : List Ty → Nat → Reader → Option (Val × Reader)
  | [], _, _ => none
  | t :: _, 0, r => readNextV w16 t r
  | _ :: ts, i + 1, r => readVariantAlt w16 ts i r
termination_by ts i r => (tsizeList ts, 0)
decreasing_by
  all_goals simp_wf
  all_goals first
    | (apply Prod.Lex.right; omega)
    | (apply Prod.Lex.left; simp [tsize, tsizeList]; try omega)

/-- `readTupleImpl`: one element per tuple component, in order. -/
def readTys (w16 : Bool) : List Ty → Reader → Option (List Val × Reader)
  | [], r => some ([], r)
  | t :: ts, r =>
    vstep (readNextV w16 t r) fun v r1 =>
      vstep (readTys w16 ts r1) fun vs r2 => some (v :: vs, r2)
termination_by ts r => (tsizeList ts, 0)
decreasing_by
  all_goals simp_wf
  all_goals first
    | (apply Prod.Lex.right; omega)
    | (apply Prod.Lex.left; simp [tsize, tsizeList]; try omega)

/-- The `for (size_t i = 0; i < count; ++i)` element loops of the container
overloads. -/
def readCount (w16 : Bool) (t : Ty) : Nat → Reader → Option (List Val × Reader)
  | 0, r => some ([], r)
  | n + 1, r =>
    vstep (readNextV w16 t r) fun v r1 =>
      vstep (readCount w16 t n r1) fun vs r2 => some (v :: vs, r2)
termination_by n r => (tsize t, n + 1)
decreasing_by
  all_goals simp_wf
  all_goals first
    | (apply Prod.Lex.right; omega)
    | (apply Prod.Lex.left; simp [tsize, tsizeList]; try omega)

end

/-- Well-typed (and representable) values: the value tree fits the type
code, scalar bit patterns fit their width, all wire counts and lengths fit
the 8-byte size field, string payloads are octets, wide strings are valid
Unicode (their UTF-8 form converts back), bitset widths are 1..64 and the
bit value fits.  These are exactly the values the C++ template
instantiations can hold on a 64-bit host. -/
inductive WT (w16 : Bool) : Ty → Val → Prop where
  | scalar (w bits : Nat) : (w = 1 ∨ w = 2 ∨ w = 4 ∨ w = 8) → bits < 256 ^ w →
      WT w16 (.scalar w) (.scalar w bits)
  | boolean (b : Bool) : WT w16 .boolean (.boolean b)
  | str (bs : List Nat) : (∀ b ∈ bs, b < 256) → bs.length < 2 ^ 64 →
      WT w16 .str (.str bs)
  | wstr (us bs : List Nat) : wstringToUtf8 w16 us = some bs →
      utf8ToWstring w16 bs = some us → bs.length < 2 ^ 64 →
       WT w16 .wstr (.wstr us)
  | optNone (t : Ty) : WT w16 (.opt t) (.opt none)
  | optSome (t : Ty) (v : Val) : WT w16 t v → WT w16 (.opt t) (.opt (some v))
  | variant (ts : List Ty) (idx : Nat) (t : Ty) (v : Val) :
      ts[idx]? = some t → idx < 2 ^ 64 → WT w16 t v →
      WT w16 (.variant ts) (.variant idx v)
  | pairV (a b : Ty) (va vb : Val) : WT w16 a va → WT w16 b vb →
      WT w16 (.pairT a b) (.pairV va vb)
  | tup (tvs : List (Ty × Val)) : (∀ p ∈ tvs, WT w16 p.1 p.2) →
      WT w16 (.tup (tvs.map Prod.fst)) (.tup (tvs.map Prod.snd))
  | arr (t : Ty) (vs : List Val) : (∀ v ∈ vs, WT w16 t v) →
      WT w16 (.arr t vs.length) (.arr vs)
  | seq (t : Ty) (vs : List Val) : vs.length < 2 ^ 64 → (∀ v ∈ vs, WT w16 t v) →
      WT w16 (.seq t) (.seq vs)
  | mapV (tk tv : Ty) (kvs : List Val) : kvs.length < 2 ^ 64 →
      (∀ kv ∈ kvs, WT w16 (.pairT tk tv) kv) →
      WT w16 (.mapT tk tv) (.mapV kvs)
  | bitsV (n value : Nat) : 1 ≤ n → n ≤ 64 → value < 2 ^ n →
      WT w16 (.bitsT n) (.bitsV n value)

/-! ### What a successful write leaves behind -/

/-- `extract` of the middle block of a three-part buffer. -/
theorem extract_at (pre mid rest : List Nat) :
    extract (pre ++ mid ++ rest) pre.length mid.length = mid := by
  unfold extract
  rw [List.append_assoc, List.drop_left]
  exact List.take_left mid rest

/-- `extract_at` with the buffer, position and length given by equations, so
it can be applied without rewriting inside other occurrences. -/
theorem extract_at_of (buf p mid rest : List Nat) (c L : Nat)
    (hbuf : buf = p ++ mid ++ rest) (hc : c = p.length) (hL : L = mid.length) :
    extract buf c L = mid := by
  subst hbuf; subst hc; subst hL; exact extract_at p mid rest

/-- After a successful write step from `w0`, the writer `w1` has advanced the
cursor by the emitted octets `bs`, kept byte order and size bound, grown (or
kept) the storage with the cursor inside it, preserved everything before the
old cursor, and holds `bs` at the old cursor. -/
def WroteAt (w0 w1 : Writer) (bs : List Nat) : Prop :=
  w1.cursor = w0.cursor + bs.length ∧
  w1.endian = w0.endian ∧
  w1.maxSize = w0.maxSize ∧
  w0.buffer.length ≤ w1.buffer.length ∧
  w1.cursor ≤ w1.buffer.length ∧
  w1.buffer.take w0.cursor = w0.buffer.take w0.cursor ∧
  extract w1.buffer w0.cursor bs.length = bs

theorem WroteAt_refl (w : Writer) (hc : w.cursor ≤ w.buffer.length) :
    WroteAt w w [] :=
  ⟨by simp, rfl, rfl, le_rfl, hc, rfl, rfl⟩

theorem WroteAt_trans {w0 w1 w2 : Writer} {bs1 bs2 : List Nat}
    (h1 : WroteAt w0 w1 bs1) (h2 : WroteAt w1 w2 bs2) :
    WroteAt w0 w2 (bs1 ++ bs2) := by
  obtain ⟨c1, e1, m1, l1, cl1, p1, x1⟩ := h1
  obtain ⟨c2, e2, m2, l2, cl2, p2, x2⟩ := h2
  have hle : w0.cursor ≤ w1.cursor := by omega
  have hd : w1.cursor - w0.cursor = bs1.length := by omega
  refine ⟨by rw [c2, c1, List.length_append]; omega,
    e2.trans e1, m2.trans m1, l1.trans l2, cl2, ?_, ?_⟩
  · have hsk : (w2.buffer.take w1.cursor).take w0.cursor = w2.buffer.take w0.cursor := by
      rw [List.take_take, min_eq_left hle]
    rw [← hsk, p2, List.take_take, min_eq_left hle, p1]
  · unfold extract
    rw [List.length_append, List.take_add]
    have part2 : ((w2.buffer.drop w0.cursor).drop bs1.length).take bs2.length = bs2 := by
      rw [List.drop_drop]
      have : w0.cursor + bs1.length = w1.cursor := by omega
      rw [this]
      exact x2
    have part1 : (w2.buffer.drop w0.cursor).take bs1.length = bs1 := by
      have step1 : (w2.buffer.take w1.cursor).drop w0.cursor
          = (w2.buffer.drop w0.cursor).take bs1.length := by
        rw [List.drop_take, hd]
      have step2 : (w1.buffer.take w1.cursor).drop w0.cursor
          = (w1.buffer.drop w0.cursor).take bs1.length := by
        rw [List.drop_take, hd]
      rw [← step1, p2, step2]
      exact x1
    rw [part1, part2]

/-- A successful `resizeIfNeeded` writes nothing, and afterwards there is
room for `n` more octets at the cursor. -/
theorem resize_wrote (w : Writer) (n : Nat) (hc : w.cursor ≤ w.buffer.length)
    (h : (resizeIfNeeded w n).1 = true) :
    WroteAt w (resizeIfNeeded w n).2 [] ∧
      w.cursor + n ≤ (resizeIfNeeded w n).2.buffer.length := by
  unfold resizeIfNeeded at h ⊢
  by_cases h0 : n = 0
  · rw [if_pos h0]
    exact ⟨WroteAt_refl w hc, show w.cursor + n ≤ w.buffer.length by omega⟩
  · rw [if_neg h0] at h ⊢
    by_cases h1 : w.cursor + n > w.maxSize
    · rw [if_pos h1] at h; exact absurd h (by simp)
    · rw [if_neg h1] at h ⊢
      by_cases h2 : w.cursor + n > w.buffer.length
      · rw [if_pos h2]
        have key : WroteAt w
            { w with buffer := w.buffer ++ List.replicate (w.cursor + n - w.buffer.length) 0 } [] ∧
            w.cursor + n ≤
              ({ w with buffer := w.buffer ++ List.replicate (w.cursor + n - w.buffer.length) 0 } :
                Writer).buffer.length := by
          refine ⟨⟨by simp, rfl, rfl, by simp, ?_, ?_, rfl⟩, ?_⟩
          · show w.cursor ≤ (w.buffer ++ List.replicate (w.cursor + n - w.buffer.length) 0).length
            simp only [List.length_append, List.length_replicate]; omega
          · exact List.take_append_of_le_length hc
          · show w.cursor + n ≤ (w.buffer ++ List.replicate (w.cursor + n - w.buffer.length) 0).length
            simp only [List.length_append, List.length_replicate]; omega
        exact key
      · rw [if_neg h2]
        exact ⟨WroteAt_refl w hc, show w.cursor + n ≤ w.buffer.length by omega⟩

/-- The raw emission step writes exactly its octets, given room. -/
theorem writeBytes_wrote (w : Writer) (bs : List Nat)
    (h : w.cursor + bs.length ≤ w.buffer.length) :
    WroteAt w (writeBytesAt w bs) bs := by
  have hc : w.cursor ≤ w.buffer.length := by omega
  have htk : (w.buffer.take w.cursor).length = w.cursor := by
    rw [List.length_take]; omega
  refine ⟨rfl, rfl, rfl, ?_, ?_, ?_, ?_⟩
  · show w.buffer.length ≤ (w.buffer.take w.cursor ++ bs ++ w.buffer.drop (w.cursor + bs.length)).length
    simp only [List.length_append, List.length_take, List.length_drop]
    omega
  · show w.cursor + bs.length ≤ (w.buffer.take w.cursor ++ bs ++ w.buffer.drop (w.cursor + bs.length)).length
    simp only [List.length_append, List.length_take, List.length_drop]
    omega
  · show (w.buffer.take w.cursor ++ bs ++ w.buffer.drop (w.cursor + bs.length)).take w.cursor
        = w.buffer.take w.cursor
    rw [List.append_assoc,
      List.take_append_of_le_length (by rw [List.length_take]; omega ), List.take_take, min_self]
  · exact extract_at_of _ (w.buffer.take w.cursor) bs _ _ _ rfl htk.symm rfl

/-- A successful scalar write emits the scalar's octets in declared order. -/
theorem writeScalar_wrote (w : Writer) (width bits : Nat)
    (hc : w.cursor ≤ w.buffer.length)
    (h : (writeScalar w width bits).1 = true) :
    WroteAt w (writeScalar w width bits).2 (scalarBytes w.endian width bits) := by
  unfold writeScalar at h ⊢
  rcases hr : resizeIfNeeded w width with ⟨ok, w1⟩
  cases ok with
  | false =>
    rw [hr] at h
    exact absurd h (by simp)
  | true =>
    rw [hr] at h
    have hres := resize_wrote w width hc (by rw [hr])
    rw [hr] at hres
    obtain ⟨hw01, hlen⟩ := hres
    have hcur1 : w1.cursor = w.cursor := by
      have := hw01.1; simpa using this
    have hend1 : w1.endian = w.endian := hw01.2.1
    have hb := writeBytes_wrote w1 (scalarBytes w1.endian width bits)
      (by rw [scalarBytes_length, hcur1]; exact hlen)
    have htr := WroteAt_trans hw01 hb
    rw [List.nil_append] at htr
    show WroteAt w (writeBytesAt w1 (scalarBytes w1.endian width bits))
      (scalarBytes w.endian width bits)
    rw [← hend1]
    exact htr

theorem wstep_true {x : Bool × Writer} {f : Writer → Bool × Writer}
    (h : (wstep x f).1 = true) : x.1 = true ∧ wstep x f = f x.2 := by
  unfold wstep at h ⊢
  by_cases hx : x.1 = true
  · rw [if_pos hx] at h ⊢; exact ⟨hx, rfl⟩
  · rw [if_neg hx] at h; exact absurd h hx

/-- A successful string write emits the 8-byte length then the raw octets. -/
theorem writeStr_wrote (bs : List Nat) (wr : Writer)
    (hok : (writeStrBytes bs wr).1 = true) (hc : wr.cursor ≤ wr.buffer.length) :
    WroteAt wr (writeStrBytes bs wr).2 (scalarBytes wr.endian 8 bs.length ++ bs) := by
  unfold writeStrBytes at hok ⊢
  obtain ⟨hr1, he1⟩ := wstep_true hok
  rw [he1] at hok ⊢
  obtain ⟨hw1, hroom⟩ := resize_wrote wr (bs.length + 8) hc hr1
  obtain ⟨hr2, he2⟩ := wstep_true hok
  rw [he2]
  have hsc := writeScalar_wrote (resizeIfNeeded wr (bs.length + 8)).2 8 bs.length
    hw1.2.2.2.2.1 hr2
  have hc1 : (resizeIfNeeded wr (bs.length + 8)).2.cursor = wr.cursor := by
    have := hw1.1; simpa using this
  have hc2 : (writeScalar (resizeIfNeeded wr (bs.length + 8)).2 8 bs.length).2.cursor
      = wr.cursor + 8 := by
    have := hsc.1
    rw [scalarBytes_length, hc1] at this
    exact this
  have hroom2 : (writeScalar (resizeIfNeeded wr (bs.length + 8)).2 8 bs.length).2.cursor
      + bs.length
      ≤ (writeScalar (resizeIfNeeded wr (bs.length + 8)).2 8 bs.length).2.buffer.length := by
    have hl2 := hsc.2.2.2.1
    rw [hc2]; omega
  have hwb := writeBytes_wrote _ bs hroom2
  have htr := WroteAt_trans hw1 (WroteAt_trans hsc hwb)
  rw [List.nil_append, hw1.2.1] at htr
  exact htr

/-- Every successful `writeNext` call advances the writer by exactly the
octets of `encode` at the writer's declared byte order, preserving
everything written before the cursor (and likewise for the element loops). -/
theorem writeNextV_wrote (est : Val → Nat) (w16 : Bool) :
    (∀ (v : Val) (wr : Writer), (writeNextV est w16 v wr).1 = true →
      wr.cursor ≤ wr.buffer.length →
      WroteAt wr (writeNextV est w16 v wr).2 (encode w16 wr.endian v)) ∧
    (∀ (vs : List Val) (wr : Writer), (writeListV est w16 vs wr).1 = true →
      wr.cursor ≤ wr.buffer.length →
      WroteAt wr (writeListV est w16 vs wr).2 (encodeList w16 wr.endian vs)) := by
  suffices H : ∀ N : Nat,
      (∀ v : Val, sizeOf v ≤ N → ∀ wr : Writer, (writeNextV est w16 v wr).1 = true →
        wr.cursor ≤ wr.buffer.length →
        WroteAt wr (writeNextV est w16 v wr).2 (encode w16 wr.endian v)) ∧
      (∀ vs : List Val, sizeOf vs ≤ N → ∀ wr : Writer, (writeListV est w16 vs wr).1 = true →
        wr.cursor ≤ wr.buffer.length →
        WroteAt wr (writeListV est w16 vs wr).2 (encodeList w16 wr.endian vs)) by
    exact ⟨fun v wr => (H (sizeOf v)).1 v le_rfl wr, fun vs wr => (H (sizeOf vs)).2 vs le_rfl wr⟩
  intro N
  induction N with
  | zero =>
    constructor
    · intro v hsz; exfalso; cases v <;> simp at hsz
    · intro vs hsz; exfalso; cases vs <;> simp at hsz
  | succ n ih =>
    obtain ⟨ihV, ihL⟩ := ih
    constructor
    · intro v hsz wr hok hc
      cases v with
      | scalar w bits =>
        rw [writeNextV] at hok ⊢
        rw [encode]
        exact writeScalar_wrote wr w bits hc hok
      | boolean b =>
        rw [writeNextV] at hok ⊢
        rw [encode]
        exact writeScalar_wrote wr 1 (if b then 1 else 0) hc hok
      | str bs =>
        rw [writeNextV] at hok ⊢
        rw [encode]
        exact writeStr_wrote bs wr hok hc
      | wstr us =>
        rw [writeNextV] at hok ⊢
        rw [encode]
        cases hcv : wstringToUtf8 w16 us with
        | none => rw [hcv] at hok; exact Bool.noConfusion hok
        | some bs =>
          rw [hcv] at hok
          have hok2 : (writeStrBytes bs wr).1 = true := hok
          simp only [Option.getD_some]
          show WroteAt wr (writeStrBytes bs wr).2 (scalarBytes wr.endian 8 bs.length ++ bs)
          exact writeStr_wrote bs wr hok2 hc
      | opt o =>
        cases o with
        | none =>
          rw [writeNextV] at hok ⊢
          rw [encode]
          exact writeScalar_wrote wr 1 0 hc hok
        | some v =>
          have hsv : sizeOf v ≤ n := by simp at hsz; omega
          rw [writeNextV] at hok ⊢
          obtain ⟨h1, he⟩ := wstep_true hok
          rw [he] at hok ⊢
          have hs := writeScalar_wrote wr 1 1 hc h1
          have hv := ihV v hsv (writeScalar wr 1 1).2 hok hs.2.2.2.2.1
          rw [hs.2.1] at hv
          rw [encode]
          exact WroteAt_trans hs hv
      | variant idx v =>
        have hsv : sizeOf v ≤ n := by simp at hsz; omega
        rw [writeNextV] at hok ⊢
        obtain ⟨h1, he⟩ := wstep_true hok
        rw [he] at hok ⊢
        have hs := writeScalar_wrote wr 8 idx hc h1
        have hv := ihV v hsv (writeScalar wr 8 idx).2 hok hs.2.2.2.2.1
        rw [hs.2.1] at hv
        rw [encode]
        exact WroteAt_trans hs hv
      | pairV a b =>
        have hsa : sizeOf a ≤ n := by simp at hsz; omega
        have hsb : sizeOf b ≤ n := by simp at hsz; omega
        rw [writeNextV] at hok ⊢
        obtain ⟨h1, he⟩ := wstep_true hok
        rw [he] at hok ⊢
        have ha := ihV a hsa wr h1 hc
        have hb := ihV b hsb (writeNextV est w16 a wr).2 hok ha.2.2.2.2.1
        rw [ha.2.1] at hb
        rw [encode]
        exact WroteAt_trans ha hb
      | tup vs =>
        have hsv : sizeOf vs ≤ n := by simp at hsz; omega
        rw [writeNextV] at hok ⊢
        rw [encode]
        exact ihL vs hsv wr hok hc
      | arr vs =>
        have hsv : sizeOf vs ≤ n := by simp at hsz; omega
        rw [writeNextV] at hok ⊢
        obtain ⟨h1, he⟩ := wstep_true hok
        rw [he] at hok ⊢
        obtain ⟨hw1, _⟩ := resize_wrote wr (est (.arr vs)) hc h1
        have hv := ihL vs hsv (resizeIfNeeded wr (est (.arr vs))).2 hok hw1.2.2.2.2.1
        rw [hw1.2.1] at hv
        have htr := WroteAt_trans hw1 hv
        rw [List.nil_append] at htr
        rw [encode]
        exact htr
      | seq vs =>
        have hsv : sizeOf vs ≤ n := by simp at hsz; omega
        rw [writeNextV] at hok ⊢
        obtain ⟨h1, he⟩ := wstep_true hok
        rw [he] at hok ⊢
        obtain ⟨hw1, _⟩ := resize_wrote wr (est (.seq vs)) hc h1
        obtain ⟨h2, he2⟩ := wstep_true hok
        rw [he2] at hok ⊢
        have hs := writeScalar_wrote (resizeIfNeeded wr (est (.seq vs))).2 8 vs.length
          hw1.2.2.2.2.1 h2
        have hv := ihL vs hsv
          (writeScalar (resizeIfNeeded wr (est (.seq vs))).2 8 vs.length).2 hok hs.2.2.2.2.1
        rw [hs.2.1, hw1.2.1] at hv
        rw [hw1.2.1] at hs
        have htr := WroteAt_trans hw1 (WroteAt_trans hs hv)
        rw [List.nil_append] at htr
        rw [encode]
        exact htr
      | mapV kvs =>
        have hsv : sizeOf kvs ≤ n := by simp at hsz; omega
        rw [writeNextV] at hok ⊢
        obtain ⟨h1, he⟩ := wstep_true hok
        rw [he] at hok ⊢
        obtain ⟨hw1, _⟩ := resize_wrote wr (est (.mapV kvs)) hc h1
        obtain ⟨h2, he2⟩ := wstep_true hok
        rw [he2] at hok ⊢
        have hs := writeScalar_wrote (resizeIfNeeded wr (est (.mapV kvs))).2 8 kvs.length
          hw1.2.2.2.2.1 h2
        have hv := ihL kvs hsv
          (writeScalar (resizeIfNeeded wr (est (.mapV kvs))).2 8 kvs.length).2 hok hs.2.2.2.2.1
        rw [hs.2.1, hw1.2.1] at hv
        rw [hw1.2.1] at hs
        have htr := WroteAt_trans hw1 (WroteAt_trans hs hv)
        rw [List.nil_append] at htr
        rw [encode]
        exact htr
      | bitsV m value =>
        rw [writeNextV] at hok ⊢
        rw [encode]
        exact writeScalar_wrote wr (bitsetWidth m) value hc hok
    · intro vs hsz wr hok hc
      cases vs with
      | nil =>
        rw [writeListV] at hok ⊢
        rw [encodeList]
        exact WroteAt_refl wr hc
      | cons v vs =>
        have hsv : sizeOf v ≤ n := by simp at hsz; omega
        have hsl : sizeOf vs ≤ n := by simp at hsz; omega
        rw [writeListV] at hok ⊢
        obtain ⟨h1, he⟩ := wstep_true hok
        rw [he] at hok ⊢
        have ha := ihV v hsv wr h1 hc
        have hb := ihL vs hsl (writeNextV est w16 v wr).2 hok ha.2.2.2.2.1
        rw [ha.2.1] at hb
        rw [encodeList]
        exact WroteAt_trans ha hb

/-! ### What a read at a known position returns -/

theorem ready_mk (bs : List Nat) (c : Nat) (e : Endian) :
    (⟨bs, c, e, true⟩ : Reader).ready = true := rfl

theorem hasDataLeft_true (bs : List Nat) (c n : Nat) (e : Endian)
    (h : c + n ≤ bs.length) :
    Reader.hasDataLeft ⟨bs, c, e, true⟩ n = true := by
  unfold Reader.hasDataLeft
  simp only [Bool.true_and, decide_eq_true_eq]
  exact h

theorem pow256_8 : (256 : Nat) ^ 8 = 2 ^ 64 := by norm_num

theorem scalarBytes_w1 (e : Endian) (x : Nat) : scalarBytes e 1 x = [x % 256] := by
  cases e <;> rfl

theorem bool_byte_decode (b : Bool) :
    decide ((if b then 1 else 0 : Nat) % 256 ≠ 0) = b := by
  cases b <;> decide

theorem rstep_some {α β : Type} (a : α) (r : Reader) (f : α → Reader → Option β) :
    rstep (some a, r) f = f a r := rfl

theorem rstep_none {α β : Type} (r : Reader) (f : α → Reader → Option β) :
    rstep (none, r) f = none := rfl

theorem vstep_some {α β : Type} (a : α) (r : Reader) (f : α → Reader → Option β) :
    vstep (some (a, r)) f = f a r := rfl

theorem vstep_none {α β : Type} (f : α → Reader → Option β) :
    vstep (none : Option (α × Reader)) f = none := rfl

/-- Reading a `w`-byte scalar whose octets sit at the cursor reassembles its
bit pattern and advances by `w`. -/
theorem readScalar_at (e : Endian) (w bits : Nat) (pre rest : List Nat)
    (h : bits < 256 ^ w) :
    readScalar w ⟨pre ++ (scalarBytes e w bits ++ rest), pre.length, e, true⟩
      = (some bits,
        ⟨pre ++ (scalarBytes e w bits ++ rest), pre.length + w, e, true⟩) := by
  unfold readScalar
  have hlen : (pre ++ (scalarBytes e w bits ++ rest)).length
      = pre.length + (w + rest.length) := by
    simp [scalarBytes_length]
  rw [if_pos (hasDataLeft_true _ _ _ _ (by rw [hlen]; omega))]
  show (some (scalarVal e (extract (pre ++ (scalarBytes e w bits ++ rest)) pre.length w)),
      (⟨pre ++ (scalarBytes e w bits ++ rest), pre.length + w, e, true⟩ : Reader))
    = _
  rw [extract_at_of _ pre (scalarBytes e w bits) rest _ _ (by rw [List.append_assoc]) rfl
      (scalarBytes_length e w bits).symm,
    scalarVal_scalarBytes e w bits h]

/-- Reading a bool whose octet sits at the cursor. -/
theorem readBool_at (e : Endian) (x : Nat) (pre rest : List Nat) :
    readBool ⟨pre ++ (scalarBytes e 1 x ++ rest), pre.length, e, true⟩
      = (some (decide (x % 256 ≠ 0)),
        ⟨pre ++ (scalarBytes e 1 x ++ rest), pre.length + 1, e, true⟩) := by
  unfold readBool
  have hlen : (pre ++ (scalarBytes e 1 x ++ rest)).length
      = pre.length + (1 + rest.length) := by
    simp [scalarBytes_length]
  rw [if_pos (hasDataLeft_true _ _ _ _ (by rw [hlen]; omega))]
  show (some (decide (extract (pre ++ (scalarBytes e 1 x ++ rest)) pre.length 1 ≠ [0])),
      (⟨pre ++ (scalarBytes e 1 x ++ rest), pre.length + 1, e, true⟩ : Reader))
    = _
  rw [extract_at_of _ pre (scalarBytes e 1 x) rest _ _ (by rw [List.append_assoc]) rfl
      (scalarBytes_length e 1 x).symm,
    scalarBytes_w1,
    decide_eq_decide.mpr (show ([x % 256] ≠ [0]) ↔ (x % 256 ≠ 0) by simp)]

/-- `readVariantAlt` dispatches to the read of the indexed alternative. -/
theorem readVariantAlt_eq (w16 : Bool) :
    ∀ (ts : List Ty) (idx : Nat) (t : Ty) (r : Reader),
      ts[idx]? = some t → readVariantAlt w16 ts idx r = readNextV w16 t r := by
  intro ts
  induction ts with
  | nil => intro idx t r h; simp at h
  | cons hd tl ihts =>
    intro idx t r h
    cases idx with
    | zero =>
      simp at h
      rw [readVariantAlt, h]
    | succ i =>
      rw [readVariantAlt]
      exact ihts i t r (by simpa using h)

/-- A value that fits `n ≤ 64` bits fits the bitset's chosen storage. -/
theorem lt_pow256_bitsetWidth (n value : Nat) (hn : n ≤ 64) (h : value < 2 ^ n) :
    value < 256 ^ bitsetWidth n := by
  unfold bitsetWidth
  by_cases h8 : n ≤ 8
  · rw [if_pos h8]
    have := Nat.pow_le_pow_right (show 1 ≤ 2 by norm_num) h8
    norm_num
    omega
  · rw [if_neg h8]
    by_cases h16 : n ≤ 16
    · rw [if_pos h16]
      have := Nat.pow_le_pow_right (show 1 ≤ 2 by norm_num) h16
      norm_num
      omega
    · rw [if_neg h16]
      by_cases h32 : n ≤ 32
      · rw [if_pos h32]
        have := Nat.pow_le_pow_right (show 1 ≤ 2 by norm_num) h32
        norm_num
        omega
      · rw [if_neg h32]
        have := Nat.pow_le_pow_right (show 1 ≤ 2 by norm_num) hn
        norm_num
        omega

/-- The element loop of a container read consumes the juxtaposed element
encodings and returns the original elements, given that each element reads
back correctly at every position. -/
theorem readCount_at_of (w16 : Bool) (e : Endian) (t : Ty) :
    ∀ (vs : List Val),
      (∀ v ∈ vs, ∀ (pre rest : List Nat),
        readNextV w16 t ⟨pre ++ (encode w16 e v ++ rest), pre.length, e, true⟩
          = some (v, ⟨pre ++ (encode w16 e v ++ rest),
              pre.length + (encode w16 e v).length, e, true⟩)) →
      ∀ (pre rest : List Nat),
        readCount w16 t vs.length ⟨pre ++ (encodeList w16 e vs ++ rest), pre.length, e, true⟩
          = some (vs, ⟨pre ++ (encodeList w16 e vs ++ rest),
              pre.length + (encodeList w16 e vs).length, e, true⟩) := by
  intro vs
  induction vs with
  | nil =>
    intro _ pre rest
    rw [encodeList, List.length_nil, readCount]
    simp
  | cons v vs ihvs =>
    intro hmem pre rest
    rw [encodeList, List.length_cons, readCount,
      List.append_assoc (encode w16 e v) (encodeList w16 e vs) rest]
    have h1 := hmem v (List.mem_cons_self v vs) pre (encodeList w16 e vs ++ rest)
    rw [h1]
    simp only [vstep_some]
    have h2 := ihvs (fun u hu => hmem u (List.mem_cons_of_mem v hu))
      (pre ++ encode w16 e v) rest
    simp only [List.append_assoc, List.length_append, Nat.add_assoc] at h2
    rw [h2]
    simp only [vstep_some]
    simp [List.length_append, Nat.add_assoc]

/-- The tuple read consumes the juxtaposed component encodings and returns
the original components. -/
theorem readTys_at_of (w16 : Bool) (e : Endian) :
    ∀ (tvs : List (Ty × Val)),
      (∀ p ∈ tvs, ∀ (pre rest : List Nat),
        readNextV w16 p.1 ⟨pre ++ (encode w16 e p.2 ++ rest), pre.length, e, true⟩
          = some (p.2, ⟨pre ++ (encode w16 e p.2 ++ rest),
              pre.length + (encode w16 e p.2).length, e, true⟩)) →
      ∀ (pre rest : List Nat),
        readTys w16 (tvs.map Prod.fst)
            ⟨pre ++ (encodeList w16 e (tvs.map Prod.snd) ++ rest), pre.length, e, true⟩
          = some (tvs.map Prod.snd,
              ⟨pre ++ (encodeList w16 e (tvs.map Prod.snd) ++ rest),
                pre.length + (encodeList w16 e (tvs.map Prod.snd)).length, e, true⟩) := by
  intro tvs
  induction tvs with
  | nil =>
    intro _ pre rest
    simp only [List.map_nil]
    rw [encodeList, readTys]
    simp
  | cons p tvs ihtvs =>
    intro hmem pre rest
    simp only [List.map_cons]
    rw [encodeList, readTys,
      List.append_assoc (encode w16 e p.2) (encodeList w16 e (tvs.map Prod.snd)) rest]
    have h1 := hmem p (List.mem_cons_self p tvs) pre
      (encodeList w16 e (tvs.map Prod.snd) ++ rest)
    rw [h1]
    simp only [vstep_some]
    have h2 := ihtvs (fun q hq => hmem q (List.mem_cons_of_mem p hq))
      (pre ++ encode w16 e p.2) rest
    simp only [List.append_assoc, List.length_append, Nat.add_assoc] at h2
    rw [h2]
    simp only [vstep_some]
    simp [List.length_append, Nat.add_assoc]

/-- Every well-typed value reads back from its own encoding, wherever it
sits in the buffer: `readNext` consumes exactly the encoded octets and
returns the original value. -/
theorem readNextV_at (w16 : Bool) (e : Endian) :
    ∀ (t : Ty) (v : Val), WT w16 t v → ∀ (pre rest : List Nat),
      readNextV w16 t ⟨pre ++ (encode w16 e v ++ rest), pre.length, e, true⟩
        = some (v, ⟨pre ++ (encode w16 e v ++ rest),
            pre.length + (encode w16 e v).length, e, true⟩) := by
  intro t v hwt
  induction hwt with
  | scalar w bits hw hb =>
    intro pre rest
    rw [encode, readNextV, readScalar_at e w bits pre rest hb]
    simp only [rstep_some]
    simp [scalarBytes_length]
  | boolean b =>
    intro pre rest
    rw [encode, readNextV, readBool_at e (if b then 1 else 0) pre rest]
    simp only [rstep_some]
    rw [bool_byte_decode]
    simp [scalarBytes_length]
  | str bs hbs hlen =>
    intro pre rest
    rw [encode, readNextV,
      List.append_assoc (scalarBytes e 8 bs.length) bs rest,
      readScalar_at e 8 bs.length pre (bs ++ rest) (by rw [pow256_8]; exact hlen)]
    simp only [rstep_some]
    have hdl : Reader.hasDataLeft
        ⟨pre ++ (scalarBytes e 8 bs.length ++ (bs ++ rest)), pre.length + 8, e, true⟩
        bs.length = true := by
      apply hasDataLeft_true
      simp only [List.length_append, scalarBytes_length]
      omega
    rw [if_pos hdl,
      extract_at_of _ (pre ++ scalarBytes e 8 bs.length) bs rest _ _
        (by simp [List.append_assoc]) (by simp [scalarBytes_length]) rfl]
    simp [scalarBytes_length, List.length_append, Nat.add_assoc]
  | wstr us bs henc hdec hlen =>
    intro pre rest
    rw [encode, henc]
    simp only [Option.getD_some]
    rw [readNextV, readWstr,
      List.append_assoc (scalarBytes e 8 bs.length) bs rest,
      readScalar_at e 8 bs.length pre (bs ++ rest) (by rw [pow256_8]; exact hlen)]
    simp only [rstep_some]
    have hdl : Reader.hasDataLeft
        ⟨pre ++ (scalarBytes e 8 bs.length ++ (bs ++ rest)), pre.length + 8, e, true⟩
        bs.length = true := by
      apply hasDataLeft_true
      simp only [List.length_append, scalarBytes_length]
      omega
    rw [if_pos hdl,
      extract_at_of _ (pre ++ scalarBytes e 8 bs.length) bs rest _ _
        (by simp [List.append_assoc]) (by simp [scalarBytes_length]) rfl,
      hdec]
    simp [scalarBytes_length, List.length_append, Nat.add_assoc]
  | optNone t =>
    intro pre rest
    rw [encode, readNextV, if_pos (ready_mk _ _ _), readBool_at e 0 pre rest]
    simp only [rstep_some]
    rw [show decide ((0 : Nat) % 256 ≠ 0) = false from by decide,
      if_neg (show ¬((false : Bool) = true) from by decide)]
    simp [scalarBytes_length]
  | optSome t v hv ihv =>
    intro pre rest
    rw [encode, readNextV, if_pos (ready_mk _ _ _),
      List.append_assoc (scalarBytes e 1 1) (encode w16 e v) rest,
      readBool_at e 1 pre (encode w16 e v ++ rest)]
    simp only [rstep_some]
    rw [show decide ((1 : Nat) % 256 ≠ 0) = true from by decide,
      if_pos (rfl : (true : Bool) = true)]
    have h2 := ihv (pre ++ scalarBytes e 1 1) rest
    simp only [List.append_assoc, List.length_append, scalarBytes_length, Nat.add_assoc] at h2
    rw [h2]
    simp only [vstep_some]
    simp [scalarBytes_length, List.length_append, Nat.add_assoc]
  | variant ts idx t v hget hidx hv ihv =>
    intro pre rest
    rw [encode, readNextV, if_pos (ready_mk _ _ _),
      List.append_assoc (scalarBytes e 8 idx) (encode w16 e v) rest,
      readScalar_at e 8 idx pre (encode w16 e v ++ rest) (by rw [pow256_8]; exact hidx)]
    simp only [rstep_some]
    have hlt : idx < ts.length := by
      rw [List.getElem?_eq_some] at hget
      exact hget.1
    rw [if_pos hlt, readVariantAlt_eq w16 ts idx t _ hget]
    have h2 := ihv (pre ++ scalarBytes e 8 idx) rest
    simp only [List.append_assoc, List.length_append, scalarBytes_length, Nat.add_assoc] at h2
    rw [h2]
    simp only [vstep_some]
    simp [scalarBytes_length, List.length_append, Nat.add_assoc]
  | pairV a b va vb hwa hwb iha ihb =>
    intro pre rest
    rw [encode, readNextV, if_pos (ready_mk _ _ _),
      List.append_assoc (encode w16 e va) (encode w16 e vb) rest]
    have h1 := iha pre (encode w16 e vb ++ rest)
    rw [h1]
    simp only [vstep_some]
    have h2 := ihb (pre ++ encode w16 e va) rest
    simp only [List.append_assoc, List.length_append, Nat.add_assoc] at h2
    rw [h2]
    simp only [vstep_some]
    simp [List.length_append, Nat.add_assoc]
  | tup tvs hmem ih =>
    intro pre rest
    rw [encode, readNextV, if_pos (ready_mk _ _ _)]
    rw [readTys_at_of w16 e tvs ih pre rest]
    simp only [vstep_some]
  | arr t vs hmem ih =>
    intro pre rest
    rw [encode, readNextV, if_pos (ready_mk _ _ _)]
    rw [readCount_at_of w16 e t vs ih pre rest]
    simp only [vstep_some]
  | seq t vs hlen hmem ih =>
    intro pre rest
    rw [encode, readNextV, if_pos (ready_mk _ _ _),
      List.append_assoc (scalarBytes e 8 vs.length) (encodeList w16 e vs) rest,
      readScalar_at e 8 vs.length pre (encodeList w16 e vs ++ rest)
        (by rw [pow256_8]; exact hlen)]
    simp only [rstep_some]
    have h2 := readCount_at_of w16 e t vs ih (pre ++ scalarBytes e 8 vs.length) rest
    simp only [List.append_assoc, List.length_append, scalarBytes_length, Nat.add_assoc] at h2
    rw [h2]
    simp only [vstep_some]
    simp [scalarBytes_length, List.length_append, Nat.add_assoc]
  | mapV tk tv kvs hlen hmem ih =>
    intro pre rest
    rw [encode, readNextV, if_pos (ready_mk _ _ _),
      List.append_assoc (scalarBytes e 8 kvs.length) (encodeList w16 e kvs) rest,
      readScalar_at e 8 kvs.length pre (encodeList w16 e kvs ++ rest)
        (by rw [pow256_8]; exact hlen)]
    simp only [rstep_some]
    have h2 := readCount_at_of w16 e (.pairT tk tv) kvs ih
      (pre ++ scalarBytes e 8 kvs.length) rest
    simp only [List.append_assoc, List.length_append, scalarBytes_length, Nat.add_assoc] at h2
    rw [h2]
    simp only [vstep_some]
    simp [scalarBytes_length, List.length_append, Nat.add_assoc]
  | bitsV n value hn1 hn2 hv =>
    intro pre rest
    rw [encode, readNextV, readBits,
      readScalar_at e (bitsetWidth n) value pre rest (lt_pow256_bitsetWidth n value hn2 hv)]
    simp only [rstep_some]
    rw [Nat.mod_eq_of_lt hv]
    simp [scalarBytes_length]

/-- `setWritingFinished(true)` followed by releasing the storage: the octets
written so far, i.e. the buffer shrunk to the cursor. -/
def Writer.released (w : Writer) : List Nat :=
  w.buffer.take w.cursor

/-- C3: for every well-typed value of every supported wire shape (machine
scalars including float bit patterns, bool, string, wide string of valid
Unicode, optional, variant, pair, tuple, fixed array, the count-prefixed
sequence containers, maps, bitsets of width 1..64, and arbitrary nestings),
writing it with `writeNext` into a fresh writer and reading with `readNext`
from a reader built on the writer's released bytes under the same declared
endianness returns the original value (element lists taken in iteration
order, so set/map equality is content-wise), for both endiannesses, any
construction sizes and any container size estimate. -/
theorem C3_roundtrip (w16 : Bool) (e : Endian) (est : Val → Nat) (minS maxS : Nat)
    (t : Ty) (v : Val) (hwt : WT w16 t v)
    (hok : (writeNextV est w16 v (Writer.mk0 minS maxS e)).1 = true) :
    (readNextV w16 t
        (mkReader ((writeNextV est w16 v (Writer.mk0 minS maxS e)).2.released) e)).map
        Prod.fst
      = some v := by
  have hc : (Writer.mk0 minS maxS e).cursor ≤ (Writer.mk0 minS maxS e).buffer.length := by
    simp [Writer.mk0]
  have hw := (writeNextV_wrote est w16).1 v (Writer.mk0 minS maxS e) hok hc
  obtain ⟨hcur, hend, hmax, hmono, hcl, hpre, hx⟩ := hw
  have hc0 : (Writer.mk0 minS maxS e).cursor = 0 := rfl
  have he0 : (Writer.mk0 minS maxS e).endian = e := rfl
  rw [hc0, he0] at hcur hx
  rw [Nat.zero_add] at hcur
  have hrel : (writeNextV est w16 v (Writer.mk0 minS maxS e)).2.released
      = encode w16 e v := by
    unfold Writer.released
    rw [hcur]
    unfold extract at hx
    rw [List.drop_zero] at hx
    exact hx
  rw [hrel]
  have hr := readNextV_at w16 e t v hwt [] []
  simp only [List.nil_append, List.append_nil, List.length_nil, Nat.zero_add] at hr
  show (readNextV w16 t ⟨encode w16 e v, 0, e, true⟩).map Prod.fst = some v
  rw [hr]
  simp

/-- Closed instance of C3: a pair of a 4-byte scalar and a bool survives the
little-endian roundtrip. -/
theorem C3_witness :
    (readNextV false (.pairT (.scalar 4) .boolean)
        (mkReader ((writeNextV (fun _ => 0) false
            (.pairV (.scalar 4 258) (.boolean true))
            (Writer.mk0 0 64 .little)).2.released) .little)).map Prod.fst
      = some (.pairV (.scalar 4 258) (.boolean true)) :=
  C3_roundtrip false .little (fun _ => 0) 0 64 _ _
    (WT.pairV _ _ _ _ (WT.scalar 4 258 (by omega) (by norm_num)) (WT.boolean true))
    (by simp only [writeNextV]; decide)

/-! ## The record envelope (`Serializable::serialize` / `deserialize`,
`Header`, `Flags`) -/

/-- Observable logger calls of `Serializable::deserialize`
(`dbg::warningf` / `dbg::errorf`), in emission order. -/
inductive LogEvent where
  | warnVersion
  | warnChecksum
  | errEndian
  | errId
  | errData
  | errBody
  | errSize
deriving DecidableEq, Repr

/-- `serialize::Header`: field bit patterns (checksum `int32`, id `uint16`,
version `uint8`, the flags octet, size `uint64`, timestamp `int64`). -/
structure Header where
  checksum : Nat
  id : Nat
  version : Nat
  flags : Nat
  size : Nat
  timestamp : Nat
deriving DecidableEq, Repr

/-- `Flags::getEndian`: bit 0 of the flags octet, set means little. -/
def flagsEndian (b : Nat) : Endian :=
  if b % 2 = 1 then .little else .big

/-- `Flags::getControlHash`: bit 1 of the flags octet. -/
def flagsControlHash (b : Nat) : Bool :=
  decide (b / 2 % 2 = 1)

/-- `Flags::getStrictMode`: bit 7 of the flags octet. -/
def flagsStrict (b : Nat) : Bool :=
  decide (b / 128 % 2 = 1)

/-- The flags octet `Serializable::serialize` builds: endian bit from the
writer, checksum and timestamp bits set, everything else clear. -/
def mkFlagsByte (e : Endian) : Nat :=
  (if e = .little then 1 else 0) + 2 + 4

/-- Wrapping `size_t` subtraction (the cursor differences the envelope
computes are `size_t` arithmetic). -/
def sub64 (a b : Nat) : Nat :=
  (a + SIZE_MOD - b % SIZE_MOD) % SIZE_MOD

/-- The 24 octets `Header::serialize` emits: checksum, id, version, flags
octet, size, timestamp, each in declared byte order. -/
def headerBytes (e : Endian) (h : Header) : List Nat :=
  scalarBytes e 4 h.checksum ++ scalarBytes e 2 h.id ++ scalarBytes e 1 h.version ++
    scalarBytes e 1 h.flags ++ scalarBytes e 8 h.size ++ scalarBytes e 8 h.timestamp

/-- `Header::serialize`: six chained scalar writes. -/
def headerWrite (h : Header) (w : Writer) : Bool × Writer :=
  wstep (writeScalar w 4 h.checksum) fun w1 =>
    wstep (writeScalar w1 2 h.id) fun w2 =>
      wstep (writeScalar w2 1 h.version) fun w3 =>
        wstep (writeScalar w3 1 h.flags) fun w4 =>
          wstep (writeScalar w4 8 h.size) fun w5 =>
            writeScalar w5 8 h.timestamp

/-- `Header::deserialize`: six chained scalar reads (the flags octet read is
the `std::bitset<8>` read of `Flags::deserialize`). -/
def headerRead (r : Reader) : Option (Header × Reader) :=
  rstep (readScalar 4 r) fun cks r1 =>
    rstep (readScalar 2 r1) fun i r2 =>
      rstep (readScalar 1 r2) fun ver r3 =>
        rstep (readScalar 1 r3) fun fl r4 =>
          rstep (readScalar 8 r4) fun sz r5 =>
            rstep (readScalar 8 r5) fun ts r6 =>
              some (⟨cks, i, ver, fl, sz, ts⟩, r6)

/-- `Serializable::serialize`: reserve the 24 header octets with `setCursor`,
run the class body, rewind, write the header (checksum slot 0, endian bit
from the writer, hash and time bits set, size = cursor delta of the body),
then — the hash bit being set — checksum the `class_size` octets starting
right after the 4-byte checksum slot, rewind again, store the checksum, and
restore the cursor to the end of the body.  `body` stands for the virtual
`serializeClass`; `now` for `Header::nowInMs()`. -/
def envelopeSerialize (recId recVer : Nat) (body : Writer → Bool × Writer) (now : Nat)
    (w : Writer) : Bool × Writer :=
  wstep (setCursor w (w.cursor + 24)) fun w1 =>
    wstep (body w1) fun w2 =>
      wstep (setCursor w2 w.cursor) fun w3 =>
        wstep (headerWrite
            ⟨0, recId, recVer, mkFlagsByte w3.endian, sub64 w2.cursor (w.cursor + 24), now⟩
            w3) fun w4 =>
          if flagsControlHash (mkFlagsByte w3.endian) = true then
            wstep (setCursor w4 w.cursor) fun w5 =>
              wstep (writeScalar w5 4
                  (calculateChecksum
                    (getBuffer w4.buffer (w.cursor + 4) (sub64 w2.cursor (w.cursor + 24)))))
                fun w6 => setCursor w6 w2.cursor
          else setCursor w4 w2.cursor

/-- `Serializable::deserialize(reader, header)`: endian mismatch is a fatal
error; a version mismatch only logs a warning and continues; id mismatch and
missing data are fatal; then the class body runs, the cursor delta must match
the header's size field, and — when the header's hash bit is set — the
checksum is recomputed over `readBytes` octets starting at
`cursor_before_class - Header::BYTES + CHECKSUM_BYTES` and compared with the
header's checksum field, a mismatch logging a warning and failing.  The
strict-mode bit is never consulted. -/
def envelopeDeserialize (recId recVer : Nat) (body : Reader → Option Reader)
    (h : Header) (r : Reader) : Bool × Reader × List LogEvent :=
  if flagsEndian h.flags ≠ r.endian then (false, r, [.errEndian])
  else
    let warns := if h.version ≠ recVer then [LogEvent.warnVersion] else []
    if h.id ≠ recId then (false, r, warns ++ [.errId])
    else if r.hasDataLeft h.size = false then (false, r, warns ++ [.errData])
    else
      match body r with
      | none => (false, r, warns ++ [.errBody])
      | some r2 =>
        if h.size ≠ sub64 r2.cursor r.cursor then (false, r2, warns ++ [.errSize])
        else if flagsControlHash h.flags = false then (true, r2, warns)
        else if h.checksum
            ≠ calculateChecksum
              (getBuffer r2.buffer ((sub64 r.cursor 24 + 4) % SIZE_MOD)
                (sub64 r2.cursor r.cursor))
          then (false, r2, warns ++ [.warnChecksum])
        else (true, r2, warns)

/-- The full entry point `Serializable::deserialize(reader)`: read the
header, then validate and parse. -/
def envelopeDeserializeFull (recId recVer : Nat) (body : Reader → Option Reader)
    (r : Reader) : Bool × Reader × List LogEvent :=
  match headerRead r with
  | none => (false, r, [])
  | some (h, r1) => envelopeDeserialize recId recVer body h r1

theorem headerBytes_length (e : Endian) (h : Header) : (headerBytes e h).length = 24 := by
  simp [headerBytes, scalarBytes_length]

theorem calculateChecksum_lt (bs : List Nat) : calculateChecksum bs < 4294967296 := by
  unfold calculateChecksum
  have h := checksum_fold_lt bs (bs.length % 4294967296) (Nat.mod_lt _ (by norm_num))
  by_cases h0 : checksumFold (bs.length % 4294967296) bs = 0
  · rw [if_pos h0, h0]
    norm_num
  · rw [if_neg h0]
    exact h

theorem sub64_eq (a b : Nat) (hba : b ≤ a) (ha : a < SIZE_MOD) : sub64 a b = a - b := by
  unfold sub64 SIZE_MOD at *
  omega

theorem setCursor_eq_true (w : Writer) (pos : Nat) (h : pos ≤ w.buffer.length) :
    setCursor w pos = (true, { w with cursor := pos }) := by
  unfold setCursor
  rw [if_neg (by omega)]

theorem setCursor_fst (w : Writer) (pos : Nat) :
    (setCursor w pos).1 = true ↔ pos ≤ w.buffer.length := by
  unfold setCursor
  by_cases h : pos > w.buffer.length
  · rw [if_pos h]
    constructor
    · intro hc; exact absurd hc (by simp)
    · intro hc; omega
  · rw [if_neg h]
    constructor
    · intro _; omega
    · intro _; rfl

theorem setCursor_buffer (w : Writer) (pos : Nat) :
    (setCursor w pos).2.buffer = w.buffer := by
  unfold setCursor
  by_cases h : pos > w.buffer.length
  · rw [if_pos h]
  · rw [if_neg h]

/-- A successful header write emits the 24 header octets. -/
theorem headerWrite_wrote (h : Header) (w : Writer)
    (hc : w.cursor ≤ w.buffer.length) (hok : (headerWrite h w).1 = true) :
    WroteAt w (headerWrite h w).2 (headerBytes w.endian h) := by
  unfold headerWrite at hok ⊢
  obtain ⟨h1, he1⟩ := wstep_true hok
  rw [he1] at hok ⊢
  have s1 := writeScalar_wrote w 4 h.checksum hc h1
  obtain ⟨h2, he2⟩ := wstep_true hok
  rw [he2] at hok ⊢
  have s2 := writeScalar_wrote _ 2 h.id s1.2.2.2.2.1 h2
  obtain ⟨h3, he3⟩ := wstep_true hok
  rw [he3] at hok ⊢
  have s3 := writeScalar_wrote _ 1 h.version s2.2.2.2.2.1 h3
  obtain ⟨h4, he4⟩ := wstep_true hok
  rw [he4] at hok ⊢
  have s4 := writeScalar_wrote _ 1 h.flags s3.2.2.2.2.1 h4
  obtain ⟨h5, he5⟩ := wstep_true hok
  rw [he5] at hok ⊢
  have s5 := writeScalar_wrote _ 8 h.size s4.2.2.2.2.1 h5
  have s6 := writeScalar_wrote _ 8 h.timestamp s5.2.2.2.2.1 hok
  rw [s1.2.1] at s2
  rw [WroteAt_trans s1 s2 |>.2.1] at s3
  rw [WroteAt_trans (WroteAt_trans s1 s2) s3 |>.2.1] at s4
  rw [WroteAt_trans (WroteAt_trans (WroteAt_trans s1 s2) s3) s4 |>.2.1] at s5
  rw [WroteAt_trans (WroteAt_trans (WroteAt_trans (WroteAt_trans s1 s2) s3) s4) s5 |>.2.1]
    at s6
  have := WroteAt_trans (WroteAt_trans (WroteAt_trans (WroteAt_trans
    (WroteAt_trans s1 s2) s3) s4) s5) s6
  simpa [headerBytes, List.append_assoc] using this

theorem wstep_true_pair (x : Writer) (f : Writer → Bool × Writer) :
    wstep (true, x) f = f x := rfl

theorem wstep_false_pair (x : Writer) (f : Writer → Bool × Writer) :
    wstep (false, x) f = (false, x) := rfl

/-- An in-bounds raw emission does not change the octets past its end, nor
the storage length. -/
theorem writeBytesAt_suffix (w : Writer) (bs : List Nat)
    (h : w.cursor + bs.length ≤ w.buffer.length) :
    (writeBytesAt w bs).buffer.drop (w.cursor + bs.length)
        = w.buffer.drop (w.cursor + bs.length) ∧
      (writeBytesAt w bs).buffer.length = w.buffer.length := by
  have hc : w.cursor ≤ w.buffer.length := by omega
  have htk : (w.buffer.take w.cursor).length = w.cursor := by
    rw [List.length_take]; omega
  constructor
  · show (w.buffer.take w.cursor ++ bs ++ w.buffer.drop (w.cursor + bs.length)).drop
        (w.cursor + bs.length) = w.buffer.drop (w.cursor + bs.length)
    have hl : (w.buffer.take w.cursor ++ bs).length = w.cursor + bs.length := by
      rw [List.length_append, htk]
    rw [← hl, List.drop_left]
  · show (w.buffer.take w.cursor ++ bs ++ w.buffer.drop (w.cursor + bs.length)).length
        = w.buffer.length
    simp only [List.length_append, htk, List.length_drop]
    omega

/-- An in-bounds scalar write does not change the octets past its end, nor
the storage length. -/
theorem writeScalar_suffix (w : Writer) (width bits : Nat)
    (h : w.cursor + width ≤ w.buffer.length) :
    (writeScalar w width bits).2.buffer.drop (w.cursor + width)
        = w.buffer.drop (w.cursor + width) ∧
      (writeScalar w width bits).2.buffer.length = w.buffer.length := by
  unfold writeScalar
  rcases hr : resizeIfNeeded w width with ⟨ok, w1⟩
  have hw1 : w1 = w := by
    unfold resizeIfNeeded at hr
    by_cases h0 : width = 0
    · rw [if_pos h0] at hr
      injection hr with _ h2
      exact h2.symm
    · rw [if_neg h0] at hr
      by_cases h1 : w.cursor + width > w.maxSize
      · rw [if_pos h1] at hr
        injection hr with _ h2
        exact h2.symm
      · rw [if_neg h1, if_neg (by omega)] at hr
        injection hr with _ h2
        exact h2.symm
  subst hw1
  cases ok with
  | false => exact ⟨rfl, rfl⟩
  | true =>
    have hb := writeBytesAt_suffix w1 (scalarBytes w1.endian width bits)
      (by rw [scalarBytes_length]; exact h)
    rw [scalarBytes_length] at hb
    exact hb

/-- `getBuffer` requests that start past a position where two buffers of
equal length agree return the same span. -/
theorem getBuffer_congr_suffix (b1 b2 : List Nat) (s0 s L : Nat)
    (hs : s0 ≤ s) (hd : b1.drop s0 = b2.drop s0) (hl : b1.length = b2.length) :
    getBuffer b1 s L = getBuffer b2 s L := by
  have hx : b1.drop s = b2.drop s := by
    have h1 : b1.drop s = (b1.drop s0).drop (s - s0) := by
      rw [List.drop_drop]
      congr 1
      omega
    rw [h1, hd, List.drop_drop]
    congr 1
    omega
  unfold getBuffer
  rw [hl, show extract b1 s L = extract b2 s L from by unfold extract; rw [hx]]

theorem flagsControlHash_mk (e : Endian) : flagsControlHash (mkFlagsByte e) = true := by
  cases e <;> decide

theorem flagsEndian_mod128 (f : Nat) : flagsEndian (f % 128) = flagsEndian f := by
  unfold flagsEndian
  rw [show f % 128 % 2 = f % 2 from by omega]

theorem flagsControlHash_mod128 (f : Nat) :
    flagsControlHash (f % 128) = flagsControlHash f := by
  unfold flagsControlHash
  rw [show f % 128 / 2 % 2 = f / 2 % 2 from by omega]

theorem flagsStrict_mod128 (f : Nat) : flagsStrict (f % 128) = false := by
  unfold flagsStrict
  rw [show f % 128 / 128 % 2 = 0 from by omega]
  decide

/-- C10 — Envelope serialize fails, leaving the writer untouched and with
the result independent of the record's body serializer, whenever the
writer's storage length is smaller than `cursor + 24` at entry: the
header-room reservation uses `setCursor`, which succeeds exactly for
positions up to the current storage length and never grows the storage, so
a successful envelope serialize requires storage already covering the
24-octet header region. -/
theorem C10_header_room_required :
    (∀ (recId recVer now : Nat) (body : Writer → Bool × Writer) (w : Writer),
      w.buffer.length < w.cursor + 24 →
      envelopeSerialize recId recVer body now w = (false, w)) ∧
    (∀ (w : Writer) (pos : Nat),
      ((setCursor w pos).1 = true ↔ pos ≤ w.buffer.length) ∧
      (setCursor w pos).2.buffer = w.buffer) ∧
    (∀ (recId recVer now : Nat) (body : Writer → Bool × Writer) (w : Writer),
      (envelopeSerialize recId recVer body now w).1 = true →
      w.cursor + 24 ≤ w.buffer.length) := by
  have key : ∀ (recId recVer now : Nat) (body : Writer → Bool × Writer) (w : Writer),
      w.buffer.length < w.cursor + 24 →
      envelopeSerialize recId recVer body now w = (false, w) := by
    intro recId recVer now body w h
    unfold envelopeSerialize
    rw [show setCursor w (w.cursor + 24) = (false, w) from by
        unfold setCursor
        rw [if_pos (by omega)],
      wstep_false_pair]
  refine ⟨key, fun w pos => ⟨setCursor_fst w pos, setCursor_buffer w pos⟩, ?_⟩
  intro recId recVer now body w hsucc
  by_contra hlt
  rw [key recId recVer now body w (by omega)] at hsucc
  exact absurd hsucc (by simp)

/-- Closed instance of C10: a writer constructed with 10 octets of storage
cannot host the 24-octet header, so envelope serialize fails with the
writer unchanged. -/
theorem C10_witness :
    (Writer.mk0 10 100 .little).buffer.length < (Writer.mk0 10 100 .little).cursor + 24 ∧
    envelopeSerialize 1 1 (fun x => (true, x)) 0 (Writer.mk0 10 100 .little)
      = (false, Writer.mk0 10 100 .little) :=
  ⟨by decide,
    C10_header_room_required.1 1 1 0 (fun x => (true, x)) (Writer.mk0 10 100 .little)
      (by decide)⟩

/-- A one-octet class body read (`deserializeClass` reading one `uint8`). -/
def c1Body : Reader → Option Reader := fun r =>
  match readScalar 1 r with
  | (some _, r1) => some r1
  | (none, _) => none

/-- A header whose strict-mode bit (bit 7 of flags octet `135 = 0b10000111`)
is set and whose version (2) differs from the target's (1); checksum 31
matches the one-octet body `[0]`. -/
def c1Header : Header := ⟨31, 7, 2, 135, 1, 0⟩

/-- A little-endian reader positioned after a 24-octet header, one body
octet left. -/
def c1Reader : Reader := ⟨List.replicate 24 0 ++ [55], 24, .little, true⟩

/-- C1 (counterexample) — with the strict-mode bit set and a version
mismatch, envelope deserialize nevertheless succeeds, emitting only the
version warning: strict mode does not make a version mismatch fatal. -/
theorem C1_counterexample :
    flagsStrict c1Header.flags = true ∧
    c1Header.version ≠ 1 ∧
    (envelopeDeserialize 7 1 c1Body c1Header c1Reader).1 = true ∧
    (envelopeDeserialize 7 1 c1Body c1Header c1Reader).2.2 = [.warnVersion] := by
  decide

/-- C1 (amended) — on envelope deserialize, a version mismatch emits a
warning through the logger and deserialization continues (whenever the
endian check passed); the outcome is the same for every target version; and
the whole result is unchanged when bit 7 (strict mode) of the header's
flags octet is cleared, because the strict-mode flag is never consulted. -/
theorem C1_version_mismatch_warns_strict_unused :
    (∀ (recId recVer : Nat) (body : Reader → Option Reader) (h : Header) (r : Reader),
      flagsEndian h.flags = r.endian → h.version ≠ recVer →
      LogEvent.warnVersion ∈ (envelopeDeserialize recId recVer body h r).2.2) ∧
    (∀ (recId recVer recVer2 : Nat) (body : Reader → Option Reader) (h : Header) (r : Reader),
      (envelopeDeserialize recId recVer body h r).1
        = (envelopeDeserialize recId recVer2 body h r).1) ∧
    (∀ (recId recVer : Nat) (body : Reader → Option Reader) (h : Header) (r : Reader),
      envelopeDeserialize recId recVer body { h with flags := h.flags % 128 } r
        = envelopeDeserialize recId recVer body h r) := by
  refine ⟨?_, ?_, ?_⟩
  · intro recId recVer body h r hE hV
    unfold envelopeDeserialize
    rw [if_neg (fun hne => hne hE), if_pos hV]
    by_cases c2 : h.id ≠ recId
    · rw [if_pos c2]; simp
    · rw [if_neg c2]
      by_cases c3 : r.hasDataLeft h.size = false
      · rw [if_pos c3]; simp
      · rw [if_neg c3]
        rcases hb : body r with _ | r2
        · simp
        · simp only []
          by_cases c4 : h.size ≠ sub64 r2.cursor r.cursor
          · rw [if_pos c4]; simp
          · rw [if_neg c4]
            by_cases c5 : flagsControlHash h.flags = false
            · rw [if_pos c5]; simp
            · rw [if_neg c5]
              by_cases c6 : h.checksum
                  ≠ calculateChecksum
                    (getBuffer r2.buffer ((sub64 r.cursor 24 + 4) % SIZE_MOD)
                      (sub64 r2.cursor r.cursor))
              · rw [if_pos c6]; simp
              · rw [if_neg c6]; simp
  · intro recId recVer recVer2 body h r
    unfold envelopeDeserialize
    by_cases c1 : flagsEndian h.flags ≠ r.endian
    · rw [if_pos c1, if_pos c1]
    · rw [if_neg c1, if_neg c1]
      by_cases c2 : h.id ≠ recId
      · rw [if_pos c2, if_pos c2]
      · rw [if_neg c2, if_neg c2]
        by_cases c3 : r.hasDataLeft h.size = false
        · rw [if_pos c3, if_pos c3]
        · rw [if_neg c3, if_neg c3]
          rcases hb : body r with _ | r2
          · rfl
          · simp only []
            by_cases c4 : h.size ≠ sub64 r2.cursor r.cursor
            · rw [if_pos c4, if_pos c4]
            · rw [if_neg c4, if_neg c4]
              by_cases c5 : flagsControlHash h.flags = false
              · rw [if_pos c5, if_pos c5]
              · rw [if_neg c5, if_neg c5]
                by_cases c6 : h.checksum
                    ≠ calculateChecksum
                      (getBuffer r2.buffer ((sub64 r.cursor 24 + 4) % SIZE_MOD)
                        (sub64 r2.cursor r.cursor))
                · rw [if_pos c6, if_pos c6]
                · rw [if_neg c6, if_neg c6]
  · intro recId recVer body h r
    have hE := flagsEndian_mod128 h.flags
    have hH := flagsControlHash_mod128 h.flags
    simp only [envelopeDeserialize, hE, hH]

/-- Closed instance of C1: the concrete strict-bit fixture, the warning and
the success obtained by applying the amended theorem. -/
theorem C1_witness :
    flagsEndian c1Header.flags = c1Reader.endian ∧
    c1Header.version ≠ 1 ∧
    LogEvent.warnVersion ∈ (envelopeDeserialize 7 1 c1Body c1Header c1Reader).2.2 ∧
    (envelopeDeserialize 7 1 c1Body c1Header c1Reader).1
      = (envelopeDeserialize 7 2 c1Body c1Header c1Reader).1 ∧
    envelopeDeserialize 7 1 c1Body { c1Header with flags := c1Header.flags % 128 } c1Reader
      = envelopeDeserialize 7 1 c1Body c1Header c1Reader :=
  ⟨by decide, by decide,
    C1_version_mismatch_warns_strict_unused.1 7 1 c1Body c1Header c1Reader
      (by decide) (by decide),
    C1_version_mismatch_warns_strict_unused.2.1 7 1 2 c1Body c1Header c1Reader,
    C1_version_mismatch_warns_strict_unused.2.2 7 1 c1Body c1Header c1Reader⟩

theorem pow256_4 : (256 : Nat) ^ 4 = 4294967296 := by norm_num

/-- A 25-octet little-endian writer (room for the header and one body
octet). -/
def c2Writer : Writer := Writer.mk0 25 25 .little

/-- A class body that writes one `uint8` of value 55. -/
def c2Body : Writer → Bool × Writer := fun w' => writeScalar w' 1 55

/-- A class body that reads one `uint8`. -/
def c2ReadBody : Reader → Option Reader := fun r =>
  match readScalar 1 r with
  | (some _, r1) => some r1
  | (none, _) => none

/-- The header matching the envelope `c2Body` writes through `c2Writer`:
checksum 38 is the rolling hash of the single covered octet `7` (the low id
octet, which sits at offset `p0 + 4`). -/
def c2Header : Header := ⟨38, 7, 1, 7, 1, 0⟩

/-- The serialized envelope of the `c2` fixture, positioned after the
header. -/
def c2Reader : Reader :=
  ⟨[38, 0, 0, 0, 7, 0, 1, 7, 1, 0, 0, 0, 0, 0, 0, 0, 0, 0, 0, 0, 0, 0, 0, 0, 55],
    24, .little, true⟩

/-- `c2Reader` after the one-octet class body. -/
def c2Reader2 : Reader :=
  ⟨[38, 0, 0, 0, 7, 0, 1, 7, 1, 0, 0, 0, 0, 0, 0, 0, 0, 0, 0, 0, 0, 0, 0, 0, 55],
    25, .little, true⟩

/-- C2 (counterexample) — in a concrete successful envelope serialize with
header start `p0 = 0` and post-body cursor `p1 = 25`, the stored checksum
equals the rolling hash of the single octet `[p0 + 4, p0 + 5)` (the
class-size-many octets after the checksum slot) and differs from the hash
of the claimed range `[p0 + 4, p1)`: the covered range does not extend to
the end of the body. -/
theorem C2_counterexample :
    (envelopeSerialize 7 1 c2Body 0 c2Writer).1 = true ∧
    (envelopeSerialize 7 1 c2Body 0 c2Writer).2.cursor = 25 ∧
    scalarVal Endian.little
        (extract (envelopeSerialize 7 1 c2Body 0 c2Writer).2.buffer 0 4)
      = calculateChecksum
          (extract (envelopeSerialize 7 1 c2Body 0 c2Writer).2.buffer 4 1) ∧
    scalarVal Endian.little
        (extract (envelopeSerialize 7 1 c2Body 0 c2Writer).2.buffer 0 4)
      ≠ calculateChecksum
          (extract (envelopeSerialize 7 1 c2Body 0 c2Writer).2.buffer 4 21) := by
  decide

/-- C2 (amended) — with the checksum flag set: a successful envelope
serialize whose body emits `bodyBytes` at the reserved position stores, in
the 4-octet slot at the header start `p0`, the checksum of the octets
`[p0 + 4, p0 + 4 + bodyBytes.length)` of the final buffer — a range that
ends at `p1 - 20`, twenty octets short of the post-body cursor `p1`; and
envelope deserialize with body start `c0` recomputes the checksum over
`readBytes` octets starting at `c0 - 20` (not up to `c1`) and fails exactly
when it differs from the header's checksum field, warning on mismatch. -/
theorem C2_checksum_ranges :
    (∀ (recId recVer now : Nat) (body : Writer → Bool × Writer) (w : Writer)
        (bodyBytes : List Nat),
      ((body { w with cursor := w.cursor + 24 }).1 = true →
        WroteAt { w with cursor := w.cursor + 24 }
          (body { w with cursor := w.cursor + 24 }).2 bodyBytes) →
      w.cursor + 24 + bodyBytes.length < SIZE_MOD →
      (envelopeSerialize recId recVer body now w).1 = true →
      (envelopeSerialize recId recVer body now w).2.cursor
          = w.cursor + 24 + bodyBytes.length ∧
        scalarVal w.endian
            (extract (envelopeSerialize recId recVer body now w).2.buffer w.cursor 4)
          = calculateChecksum
              (getBuffer (envelopeSerialize recId recVer body now w).2.buffer
                (w.cursor + 4) bodyBytes.length)) ∧
    (∀ p0 p1 : Nat, p0 + 24 ≤ p1 → p1 < SIZE_MOD →
      p0 + 4 + sub64 p1 (p0 + 24) = p1 - 20) ∧
    (∀ (recId recVer : Nat) (body : Reader → Option Reader) (h : Header) (r r2 : Reader),
      flagsEndian h.flags = r.endian → h.id = recId →
      r.hasDataLeft h.size = true → body r = some r2 →
      h.size = sub64 r2.cursor r.cursor → flagsControlHash h.flags = true →
      ((envelopeDeserialize recId recVer body h r).1 = true ↔
        h.checksum = calculateChecksum
          (getBuffer r2.buffer ((sub64 r.cursor 24 + 4) % SIZE_MOD)
            (sub64 r2.cursor r.cursor))) ∧
      (h.checksum ≠ calculateChecksum
          (getBuffer r2.buffer ((sub64 r.cursor 24 + 4) % SIZE_MOD)
            (sub64 r2.cursor r.cursor)) →
        LogEvent.warnChecksum ∈ (envelopeDeserialize recId recVer body h r).2.2)) ∧
    (∀ c0 : Nat, 24 ≤ c0 → c0 < SIZE_MOD → (sub64 c0 24 + 4) % SIZE_MOD = c0 - 20) := by
  refine ⟨?_, ?_, ?_, ?_⟩
  · intro recId recVer now body w bodyBytes hbody hbound hok
    unfold envelopeSerialize at hok ⊢
    have h1le : w.cursor + 24 ≤ w.buffer.length := by
      by_contra hgt
      rw [show setCursor w (w.cursor + 24) = (false, w) from by
          unfold setCursor
          rw [if_pos (by omega)],
        wstep_false_pair] at hok
      exact absurd hok (by simp)
    have e1 : setCursor w (w.cursor + 24) = (true, { w with cursor := w.cursor + 24 }) :=
      setCursor_eq_true _ _ h1le
    simp only [e1, wstep_true_pair] at hok ⊢
    set W1 : Writer := { w with cursor := w.cursor + 24 } with hW1def
    obtain ⟨hbok, hbe⟩ := wstep_true hok
    rw [hbe] at hok ⊢
    set W2 : Writer := (body W1).2 with hW2def
    have hwb := hbody hbok
    obtain ⟨hbc, hbend, hbm, hbl, hbcl, hbp, hbx⟩ := hwb
    have hc1 : W1.cursor = w.cursor + 24 := by rw [hW1def]
    have hb1 : W1.buffer = w.buffer := by rw [hW1def]
    have he1' : W1.endian = w.endian := by rw [hW1def]
    have hW2c : W2.cursor = w.cursor + 24 + bodyBytes.length := by rw [hbc, hc1]
    have hW2e : W2.endian = w.endian := hbend.trans he1'
    have hW2l : w.buffer.length ≤ W2.buffer.length := by rw [← hb1]; exact hbl
    have h3le : w.cursor ≤ W2.buffer.length := by omega
    have e3 : setCursor W2 w.cursor = (true, { W2 with cursor := w.cursor }) :=
      setCursor_eq_true _ _ h3le
    simp only [e3, wstep_true_pair] at hok ⊢
    set W3 : Writer := { W2 with cursor := w.cursor } with hW3def
    have hc3 : W3.cursor = w.cursor := by rw [hW3def]
    have hb3 : W3.buffer = W2.buffer := by rw [hW3def]
    have he3' : W3.endian = W2.endian := by rw [hW3def]
    obtain ⟨h4ok, h4e⟩ := wstep_true hok
    rw [h4e] at hok ⊢
    have hhw := headerWrite_wrote
      ⟨0, recId, recVer, mkFlagsByte W3.endian, sub64 W2.cursor (w.cursor + 24), now⟩
      W3 (by rw [hc3, hb3]; omega) h4ok
    set W4 : Writer :=
      (headerWrite
        ⟨0, recId, recVer, mkFlagsByte W3.endian, sub64 W2.cursor (w.cursor + 24), now⟩
        W3).2 with hW4def
    obtain ⟨hhc, hhe, hhm, hhl, hhcl, hhp, hhx⟩ := hhw
    have hW4c : W4.cursor = w.cursor + 24 := by
      rw [hhc, hc3, headerBytes_length]
    have hW4e : W4.endian = w.endian := by rw [hhe, he3', hW2e]
    have hW4l : W2.buffer.length ≤ W4.buffer.length := by rw [← hb3]; exact hhl
    rw [if_pos (flagsControlHash_mk W3.endian)] at hok ⊢
    have h5le : w.cursor ≤ W4.buffer.length := by omega
    have e5 : setCursor W4 w.cursor = (true, { W4 with cursor := w.cursor }) :=
      setCursor_eq_true _ _ h5le
    simp only [e5, wstep_true_pair] at hok ⊢
    set W5 : Writer := { W4 with cursor := w.cursor } with hW5def
    have hc5 : W5.cursor = w.cursor := by rw [hW5def]
    have hb5 : W5.buffer = W4.buffer := by rw [hW5def]
    have he5' : W5.endian = W4.endian := by rw [hW5def]
    obtain ⟨h6ok, h6e⟩ := wstep_true hok
    rw [h6e] at hok ⊢
    set cks : Nat :=
      calculateChecksum
        (getBuffer W4.buffer (w.cursor + 4) (sub64 W2.cursor (w.cursor + 24)))
      with hcks
    have hws := writeScalar_wrote W5 4 cks (by rw [hc5, hb5]; omega) h6ok
    set W6 : Writer := (writeScalar W5 4 cks).2 with hW6def
    obtain ⟨hwc, hwe, hwm, hwl, hwcl, hwp, hwx⟩ := hws
    have hsuf := writeScalar_suffix W5 4 cks (by rw [hc5, hb5]; omega)
    rw [← hW6def] at hsuf
    have h7le : W2.cursor ≤ W6.buffer.length := by
      rw [hsuf.2, hb5]
      omega
    have e7 : setCursor W6 W2.cursor = (true, { W6 with cursor := W2.cursor }) :=
      setCursor_eq_true _ _ h7le
    rw [e7]
    constructor
    · show W2.cursor = w.cursor + 24 + bodyBytes.length
      exact hW2c
    · show scalarVal w.endian (extract W6.buffer w.cursor 4)
        = calculateChecksum (getBuffer W6.buffer (w.cursor + 4) bodyBytes.length)
      have hstored := hwx
      rw [scalarBytes_length, hc5] at hstored
      have hcs : sub64 W2.cursor (w.cursor + 24) = bodyBytes.length := by
        rw [hW2c, sub64_eq _ _ (by omega) hbound]
        omega
      have hgb : getBuffer W6.buffer (w.cursor + 4) bodyBytes.length
          = getBuffer W4.buffer (w.cursor + 4) bodyBytes.length := by
        apply getBuffer_congr_suffix _ _ (w.cursor + 4) _ _ le_rfl
        · rw [← hc5] at hsuf ⊢
          rw [hsuf.1, hb5]
        · rw [hsuf.2, hb5]
      rw [hstored, he5', hW4e,
        scalarVal_scalarBytes w.endian 4 cks (by rw [pow256_4]; exact calculateChecksum_lt _),
        hgb, hcks, hcs]
  · intro p0 p1 hle hlt
    rw [sub64_eq _ _ (by omega) hlt]
    omega
  · intro recId recVer body h r r2 hE hId hData hb hsize hHash
    unfold envelopeDeserialize
    rw [if_neg (fun hne => hne hE), if_neg (fun hne => hne hId),
      if_neg (by simp [hData]), hb]
    simp only []
    rw [if_neg (fun hne => hne hsize), if_neg (by simp [hHash])]
    constructor
    · by_cases hck : h.checksum
          = calculateChecksum
            (getBuffer r2.buffer ((sub64 r.cursor 24 + 4) % SIZE_MOD)
              (sub64 r2.cursor r.cursor))
      · rw [if_neg (fun hne => hne hck)]
        simp [hck]
      · rw [if_pos hck]
        simp [hck]
    · intro hne
      rw [if_pos hne]
      simp
  · intro c0 h24 hlt
    unfold sub64 SIZE_MOD at *
    omega

/-- Closed instance of C2: the concrete fixture run through every part of
the amended statement. -/
theorem C2_witness :
    ((envelopeSerialize 7 1 c2Body 0 c2Writer).2.cursor
        = c2Writer.cursor + 24 + (scalarBytes Endian.little 1 55).length ∧
      scalarVal c2Writer.endian
          (extract (envelopeSerialize 7 1 c2Body 0 c2Writer).2.buffer c2Writer.cursor 4)
        = calculateChecksum
            (getBuffer (envelopeSerialize 7 1 c2Body 0 c2Writer).2.buffer
              (c2Writer.cursor + 4) (scalarBytes Endian.little 1 55).length)) ∧
    (0 + 4 + sub64 25 (0 + 24) = 25 - 20) ∧
    (((envelopeDeserialize 7 1 c2ReadBody c2Header c2Reader).1 = true ↔
        c2Header.checksum = calculateChecksum
          (getBuffer c2Reader2.buffer ((sub64 c2Reader.cursor 24 + 4) % SIZE_MOD)
            (sub64 c2Reader2.cursor c2Reader.cursor))) ∧
      (c2Header.checksum ≠ calculateChecksum
          (getBuffer c2Reader2.buffer ((sub64 c2Reader.cursor 24 + 4) % SIZE_MOD)
            (sub64 c2Reader2.cursor c2Reader.cursor)) →
        LogEvent.warnChecksum ∈ (envelopeDeserialize 7 1 c2ReadBody c2Header c2Reader).2.2)) ∧
    ((sub64 24 24 + 4) % SIZE_MOD = 24 - 20) :=
  ⟨C2_checksum_ranges.1 7 1 0 c2Body c2Writer (scalarBytes Endian.little 1 55)
      (fun hbok => writeScalar_wrote _ 1 55 (by decide) hbok) (by decide) (by decide),
    C2_checksum_ranges.2.1 0 25 (by omega) (by decide),
    C2_checksum_ranges.2.2.1 7 1 c2ReadBody c2Header c2Reader c2Reader2
      (by decide) (by decide) (by decide) (by decide) (by decide) (by decide),
    C2_checksum_ranges.2.2.2 24 (by omega) (by decide)⟩

end Serialize
